import Mathlib

/-!
Verification of the gaphor changeset-compare and copy/paste core.

The definitions below are a shallow embedding of
`src/gaphor/core/changeset/compare.py` and `src/gaphor/diagram/copypaste.py`.
Element identifiers are strings; the supporting data model (Base elements,
ElementFactory stores, collections) is represented by explicit structures
holding exactly the observable data those functions consume through the
`save`/`load` contract described in the specification.
-/

/-! ## Part 1: the three-way diff (`gaphor/core/changeset/compare.py`) -/

/-- Element identifiers (`Id` in the source; `Id` is taken in Lean). -/
abbrev Eid := String

/-- A value as reported by an element's `save` callback to `updated_properties`:
`Base | collection[Base] | str | int | None` in the source annotation, plus
booleans (Python `bool` is a subtype of `int`) and the unlimited token.

`base` is a single element reference (only its `.id` is consumed).
`coll` is a `collection` of element references (only member `.id`s are consumed).
`star` — Modelled from the spec: the distinguished "unlimited" token
(`UnlimitedNatural`'s `*` value, whose class lives outside `src/`); per the
spec it is a scalar distinct from plain strings, integers and booleans, and
it renders as - and compares equal to - the literal `*`. -/
inductive CVal where
  | base (id : Eid)
  | coll (ids : List Eid)
  | str (s : String)
  | int (n : Int)
  | bool (b : Bool)
  | star
  | none
  deriving Repr, DecidableEq

/-- Python `==` on the values above: `str`, `int`, `bool` compare by value,
`True == 1` and `False == 0` hold across `bool`/`int`, the unlimited token
compares equal to the literal `"*"`, `None` only equals `None`; element
references compare by identity (their id) and collections pointwise. -/
def pyEq : CVal → CVal → Bool
  | .none, .none => true
  | .str a, .str b => a = b
  | .int a, .int b => a = b
  | .bool a, .bool b => a = b
  | .bool a, .int b => (if a then (1 : Int) else 0) = b
  | .int a, .bool b => a = (if b then (1 : Int) else 0)
  | .star, .star => true
  | .star, .str s => s = "*"
  | .str s, .star => s = "*"
  | .base a, .base b => a = b
  | .coll a, .coll b => a = b
  | _, _ => false

/-- A node of the three snapshots, as `compare` observes it: identity, runtime
type (`type(e).__name__` and `__modeling_language__`), whether it is a
`StyleSheet` / a `Presentation`, the id of its diagram (for presentations),
and the name/value pairs its `save` emits. -/
structure CNode where
  id : Eid
  typeName : String
  lang : String
  isStyleSheet : Bool
  isPresentation : Bool
  diagram : Option Eid
  props : List (String × CVal)
  deriving Repr, DecidableEq

/-- An `ElementFactory` snapshot: the id-keyed set of its elements. -/
abbrev CStore := List CNode

def storeKeys (s : CStore) : List Eid := (s.map (fun n => n.id)).dedup

def storeLookup (s : CStore) (k : Eid) : Option CNode := s.find? (fun n => n.id = k)

/-- The change records `compare` inserts into the current model
(`ElementChange`, `ValueChange`, `RefChange`), with the attributes `create`
sets on them. -/
inductive ChangeRec where
  | elementChange (op element_name modeling_language : String) (element_id : Eid)
      (diagram_id : Option Eid)
  | valueChange (op : String) (element_id : Eid) (property_name : String)
      (property_value property_type : Option String)
  | refChange (op : String) (element_id : Eid) (property_name : String)
      (property_ref : Option Eid)
  deriving Repr, DecidableEq

/-- The fatal conditions a `compare` call can raise: the `UnmatchableModel`
exception (carrying the offending key and the two type names), or a failed
`assert` in `updated_properties` (kind-mismatched property values). -/
inductive Abort where
  | unmatchable (key : Eid) (ancestorType incomingType : String)
  | assertFailed
  deriving Repr, DecidableEq

/-- Transcription of `set_value_change_property_value`: the `elif` chain maps
`None` to `(None, None)`, strings to tag `str`, booleans (checked before
`int`, since `bool` is a subtype of `int`) to their Python string form and tag
`bool`, integers to their string form and tag `int`, and the unlimited token
(not a `str`/`bool`/`int` instance, but `== "*"`) to tag `UnlimitedNatural`.
References and collections match no branch and leave both attributes `None`
(they never reach this function). -/
def set_value_change_property_value : CVal → Option String × Option String
  | .none => (Option.none, Option.none)
  | .str s => (some s, some "str")
  | .bool b => (some (if b then "True" else "False"), some "bool")
  | .int n => (some (toString n), some "int")
  | .star => (some "*", some "UnlimitedNatural")
  | _ => (Option.none, Option.none)

/-- The `if isinstance(value, Base) ... elif ... elif value != other` chain of
the property loop in `updated_properties`, for incoming value `value` and
ancestor value `other` (`CVal.none` when absent).  `Except.error` is a failed
`assert`. -/
def diffPart1 (eid : Eid) (name : String) (value other : CVal) :
    Except Abort (List ChangeRec) :=
  match value, other with
  | .base vid, .none => Except.ok [.refChange "update" eid name (some vid)]
  | .base vid, .base oid =>
      Except.ok (if vid = oid then [] else [.refChange "update" eid name (some vid)])
  | .base _, _ => Except.error Abort.assertFailed
  | .coll vids, .none =>
      Except.ok (vids.map (fun v => ChangeRec.refChange "add" eid name (some v)))
  | .coll vids, .coll oids =>
      Except.ok ((vids.filter (fun v => ¬ oids.contains v)).map
        (fun v => ChangeRec.refChange "add" eid name (some v)))
  | .coll _, _ => Except.error Abort.assertFailed
  | v, o =>
      if pyEq v o then Except.ok []
      else
        match o with
        | .base _ => Except.ok [.refChange "update" eid name Option.none]
        | .coll _ => Except.ok []
        | _ =>
            let pv := set_value_change_property_value v
            Except.ok [.valueChange "update" eid name pv.1 pv.2]

/-- The trailing `if isinstance(other, collection)` block of the property
loop: removals for ancestor-collection members absent from the incoming
value (an empty or absent incoming value contributes no ids). -/
def diffPart2 (eid : Eid) (name : String) (value other : CVal) :
    Except Abort (List ChangeRec) :=
  match other, value with
  | .coll oids, .none =>
      Except.ok (oids.map (fun o => ChangeRec.refChange "remove" eid name (some o)))
  | .coll oids, .coll vids =>
      Except.ok ((oids.filter (fun o => ¬ vids.contains o)).map
        (fun o => ChangeRec.refChange "remove" eid name (some o)))
  | .coll _, _ => Except.error Abort.assertFailed
  | _, _ => Except.ok []

/-- One iteration of the property loop in `updated_properties` for property
`name`: the chain, then the trailing collection-removal block, exactly as in
the source. -/
def diffProperty (eid : Eid) (name : String) (value other : CVal) :
    Except Abort (List ChangeRec) :=
  match diffPart1 eid name value other with
  | Except.error e => Except.error e
  | Except.ok p1 =>
      match diffPart2 eid name value other with
      | Except.error e => Except.error e
      | Except.ok p2 => Except.ok (p1 ++ p2)

/-- Run a record-emitting step over a list, concatenating the emitted records
and stopping at the first raised exception; earlier records are kept (they
were already created in the current model when the generator raised). -/
def foldAbort (f : α → List ChangeRec × Option Abort) :
    List α → List ChangeRec × Option Abort
  | [] => ([], Option.none)
  | x :: xs =>
      match f x with
      | (r, some a) => (r, some a)
      | (r, Option.none) =>
          let (rs, a) := foldAbort f xs
          (r ++ rs, a)

/-- The names iterated by `updated_properties`: the union of the names either
side's `save` reports (a Python set: deduplicated), skipping `id`. -/
def propNames (a : Option CNode) (i : CNode) : List String :=
  (((match a with | some x => x.props.map Prod.fst | Option.none => []) ++
      i.props.map Prod.fst).dedup).filter (fun n => n ≠ "id")

/-- Value of property `name` in a node's `save` output (`dict.get`: Python
`None` when absent, indistinguishable from a property saved as `None`). -/
def getProp (n : CNode) (name : String) : CVal :=
  match n.props.find? (fun p => p.1 = name) with
  | some p => p.2
  | Option.none => CVal.none

def getPropOpt (a : Option CNode) (name : String) : CVal :=
  match a with
  | some x => getProp x name
  | Option.none => CVal.none

/-- `ancestor.id if ancestor else incoming.id`. -/
def eidOf (a : Option CNode) (i : CNode) : Eid :=
  match a with | some x => x.id | Option.none => i.id

/-- One property iteration as a record/abort pair. -/
def diffStep (eid : Eid) (name : String) (value other : CVal) :
    List ChangeRec × Option Abort :=
  match diffProperty eid name value other with
  | Except.ok l => (l, Option.none)
  | Except.error e => ([], some e)

/-- Transcription of `updated_properties(ancestor, incoming, create)`:
property diff of a node pair, ancestor possibly absent. -/
def updated_properties (a : Option CNode) (i : CNode) :
    List ChangeRec × Option Abort :=
  foldAbort
    (fun name => diffStep (eidOf a i) name (getProp i name) (getPropOpt a name))
    (propNames a i)

/-- The last style sheet encountered while scanning `keys` of `store`
(the loop variable is overwritten on each style-sheet hit). -/
def lastSS (store : CStore) (keys : List Eid) : Option CNode :=
  keys.foldl
    (fun acc k =>
      match storeLookup store k with
      | some e => if e.isStyleSheet then some e else acc
      | Option.none => acc)
    Option.none

/-- `ancestor_keys.difference(incoming_keys)` (in ancestor-store order). -/
def removedKeys (ancestor incoming : CStore) : List Eid :=
  (storeKeys ancestor).filter (fun k => ¬ (storeKeys incoming).contains k)

/-- `incoming_keys.difference(ancestor_keys)` (in incoming-store order). -/
def addedKeys (ancestor incoming : CStore) : List Eid :=
  (storeKeys incoming).filter (fun k => ¬ (storeKeys ancestor).contains k)

/-- `ancestor_keys.intersection(incoming_keys)`. -/
def sharedKeys (ancestor incoming : CStore) : List Eid :=
  (storeKeys ancestor).filter (fun k => (storeKeys incoming).contains k)

/-- Body of the removed-keys loop for one key: an `ElementChange(remove)`
record, or nothing for a style sheet (diverted to `ancestor_style_sheet`). -/
def removeRecOf (ancestor : CStore) (k : Eid) : Option ChangeRec :=
  match storeLookup ancestor k with
  | some e =>
      if e.isStyleSheet then Option.none
      else some (ChangeRec.elementChange "remove" e.typeName e.lang k Option.none)
  | Option.none => Option.none

/-- Body of the added-keys loop for one key: an `ElementChange(add)` followed
by a full property diff against a null ancestor; style sheets are diverted. -/
def addStep (incoming : CStore) (k : Eid) : List ChangeRec × Option Abort :=
  match storeLookup incoming k with
  | some e =>
      if e.isStyleSheet then ([], Option.none)
      else
        let head := ChangeRec.elementChange "add" e.typeName e.lang k
          (if e.isPresentation then e.diagram else Option.none)
        let (ur, ua) := updated_properties Option.none e
        (head :: ur, ua)
  | Option.none => ([], Option.none)

/-- Body of the shared-keys loop for one key: `type(a) is not type(i)` raises
`UnmatchableModel`, otherwise a property diff of the pair. -/
def sharedStep (ancestor incoming : CStore) (k : Eid) :
    List ChangeRec × Option Abort :=
  match storeLookup ancestor k, storeLookup incoming k with
  | some a, some i =>
      if a.typeName ≠ i.typeName then
        ([], some (Abort.unmatchable k a.typeName i.typeName))
      else updated_properties (some a) i
  | _, _ => ([], Option.none)

/-- Phase 3: when both ancestor and incoming carried a (diverted) style sheet
and their ids differ, force a property diff between them. -/
def phase3Part (ancestor incoming : CStore) : List ChangeRec × Option Abort :=
  match lastSS ancestor (removedKeys ancestor incoming),
        lastSS incoming (addedKeys ancestor incoming) with
  | some sa, some si =>
      if sa.id ≠ si.id then updated_properties (some sa) si
      else ([], Option.none)
  | _, _ => ([], Option.none)

/-- Transcription of `compare(current, ancestor, incoming)` (primed because
`compare` collides with `Ord.compare`).  The first
component is the list of change records created in the current model by the
(fully consumed) generator, the second the exception that aborted it, if any.
Phase 1 walks removed keys then added keys, diverting style sheets; shared
keys must agree on `type(..)` or `UnmatchableModel` is raised; phase 3 diffs
differently-identified style sheets by content. -/
def compare' (ancestor incoming : CStore) : List ChangeRec × Option Abort :=
  let r1 := (removedKeys ancestor incoming).filterMap (removeRecOf ancestor)
  match foldAbort (addStep incoming) (addedKeys ancestor incoming) with
  | (r2, some ab) => (r1 ++ r2, some ab)
  | (r2, Option.none) =>
    match foldAbort (sharedStep ancestor incoming) (sharedKeys ancestor incoming) with
    | (r3, some ab) => (r1 ++ r2 ++ r3, some ab)
    | (r3, Option.none) =>
        let (r4, a4) := phase3Part ancestor incoming
        (r1 ++ r2 ++ r3 ++ r4, a4)

/-! ### Helper notions and lemmas for the compare theorems -/

/-- Scalar values: everything that is neither an element reference nor a
collection. -/
def isScalar : CVal → Bool
  | .base _ => false
  | .coll _ => false
  | _ => true

/-- Kind combinations of (incoming value, ancestor value) on which none of
the three `assert` statements of `updated_properties` fires. -/
def kindOk : CVal → CVal → Bool
  | .base _, .none => true
  | .base _, .base _ => true
  | .base _, _ => false
  | .coll _, .none => true
  | .coll _, .coll _ => true
  | .coll _, _ => false
  | .none, _ => true
  | _, .coll _ => false
  | _, _ => true

/-- A node pair whose property values are kind-aligned: no `assert` in
`updated_properties` can fire on it. -/
def alignedPair (a i : CNode) : Prop :=
  ∀ name ∈ propNames (some a) i, kindOk (getProp i name) (getProp a name) = true

instance (a i : CNode) : Decidable (alignedPair a i) := by
  unfold alignedPair; infer_instance

/-- The property name attached to a change record, if any. -/
def propNameOf : ChangeRec → Option String
  | .elementChange _ _ _ _ _ => Option.none
  | .valueChange _ _ n _ _ => some n
  | .refChange _ _ n _ => some n

/-- Records of a given property name. -/
def recordsFor (name : String) (l : List ChangeRec) : List ChangeRec :=
  l.filter (fun r => propNameOf r = some name)

theorem diffPart1_ok (eid name : String) (v o : CVal) (h : kindOk v o = true) :
    ∃ l, diffPart1 eid name v o = Except.ok l := by
  cases v <;> cases o <;>
    first
    | (simp [kindOk] at h; done)
    | exact ⟨_, rfl⟩
    | (simp only [diffPart1]; split <;> exact ⟨_, rfl⟩)

theorem diffPart2_ok (eid name : String) (v o : CVal) (h : kindOk v o = true) :
    ∃ l, diffPart2 eid name v o = Except.ok l := by
  cases v <;> cases o <;>
    first
    | (simp [kindOk] at h; done)
    | exact ⟨_, rfl⟩

theorem diffProperty_ok_of_kindOk (eid name : String) (v o : CVal)
    (h : kindOk v o = true) : ∃ l, diffProperty eid name v o = Except.ok l := by
  obtain ⟨l1, h1⟩ := diffPart1_ok eid name v o h
  obtain ⟨l2, h2⟩ := diffPart2_ok eid name v o h
  exact ⟨l1 ++ l2, by simp [diffProperty, h1, h2]⟩

theorem kindOk_none (v : CVal) : kindOk v CVal.none = true := by
  cases v <;> rfl

theorem diffProperty_none_ok (eid name : String) (v : CVal) :
    ∃ l, diffProperty eid name v CVal.none = Except.ok l :=
  diffProperty_ok_of_kindOk eid name v CVal.none (kindOk_none v)

theorem diffPart1_propName (eid name : String) (v o : CVal) (l : List ChangeRec)
    (h : diffPart1 eid name v o = Except.ok l) :
    ∀ r ∈ l, propNameOf r = some name := by
  cases v <;> cases o <;> simp only [diffPart1] at h <;> (try split at h) <;>
    (try (cases h)) <;>
    (try (simp only [Except.ok.injEq] at h; subst h)) <;>
    intro r hr <;>
    first
    | (simp at hr; done)
    | (subst hr; rfl)
    | (simp at hr; subst hr; rfl)
    | (simp at hr; rcases hr with ⟨x, hx, rfl⟩; rfl)

theorem diffPart2_propName (eid name : String) (v o : CVal) (l : List ChangeRec)
    (h : diffPart2 eid name v o = Except.ok l) :
    ∀ r ∈ l, propNameOf r = some name := by
  cases v <;> cases o <;> simp only [diffPart2] at h <;>
    (try (cases h)) <;>
    (try (simp only [Except.ok.injEq] at h; subst h)) <;>
    intro r hr <;>
    first
    | (simp at hr; done)
    | (subst hr; rfl)
    | (simp at hr; subst hr; rfl)
    | (simp at hr; rcases hr with ⟨x, hx, rfl⟩; rfl)

theorem diffProperty_propName (eid name : String) (v o : CVal) (l : List ChangeRec)
    (h : diffProperty eid name v o = Except.ok l) :
    ∀ r ∈ l, propNameOf r = some name := by
  unfold diffProperty at h
  rcases h1 : diffPart1 eid name v o with e1 | l1 <;> rw [h1] at h
  · cases h
  · rcases h2 : diffPart2 eid name v o with e2 | l2 <;> rw [h2] at h
    · cases h
    · simp only [Except.ok.injEq] at h; subst h
      intro r hr
      rcases List.mem_append.mp hr with hm | hm
      · exact diffPart1_propName eid name v o l1 h1 r hm
      · exact diffPart2_propName eid name v o l2 h2 r hm

theorem foldAbort_mem (f : α → List ChangeRec × Option Abort) (l : List α)
    (r : ChangeRec) (hr : r ∈ (foldAbort f l).1) : ∃ x ∈ l, r ∈ (f x).1 := by
  induction l with
  | nil => simp [foldAbort] at hr
  | cons x xs ih =>
      simp only [foldAbort] at hr
      rcases hfx : f x with ⟨rs, a⟩
      rw [hfx] at hr
      cases a with
      | some a => exact ⟨x, by simp, by rw [hfx]; exact hr⟩
      | none =>
          simp only [List.mem_append] at hr
          rcases hr with h | h
          · exact ⟨x, by simp, by rw [hfx]; exact h⟩
          · rcases ih h with ⟨y, hy, hry⟩
            exact ⟨y, by simp [hy], hry⟩

theorem foldAbort_none (f : α → List ChangeRec × Option Abort) (l : List α)
    (h : ∀ x ∈ l, (f x).2 = Option.none) : (foldAbort f l).2 = Option.none := by
  induction l with
  | nil => rfl
  | cons x xs ih =>
      simp only [foldAbort]
      rcases hfx : f x with ⟨rs, a⟩
      have := h x (by simp)
      rw [hfx] at this; subst this
      simpa using ih (fun y hy => h y (by simp [hy]))

theorem foldAbort_all_none_eq (f : α → List ChangeRec × Option Abort) (l : List α)
    (h : ∀ x ∈ l, (f x).2 = Option.none) :
    foldAbort f l = (l.flatMap (fun x => (f x).1), Option.none) := by
  induction l with
  | nil => rfl
  | cons x xs ih =>
      simp only [foldAbort]
      rcases hfx : f x with ⟨rs, a⟩
      have := h x (by simp)
      rw [hfx] at this; subst this
      rw [ih (fun y hy => h y (by simp [hy]))]
      simp [List.flatMap_cons, hfx]

theorem foldAbort_isSome (f : α → List ChangeRec × Option Abort) (l : List α)
    (h : ∃ x ∈ l, (f x).2.isSome) : (foldAbort f l).2.isSome := by
  induction l with
  | nil => simp at h
  | cons x xs ih =>
      simp only [foldAbort]
      rcases hfx : f x with ⟨rs, a⟩
      cases a with
      | some a => simp
      | none =>
          rcases h with ⟨y, hy, hys⟩
          rcases List.mem_cons.mp hy with rfl | hy'
          · rw [hfx] at hys; simp at hys
          · have := ih ⟨y, hy', hys⟩
            rcases hfa : foldAbort f xs with ⟨rs2, a2⟩
            rw [hfa] at this
            simpa [hfa] using this

theorem foldAbort_abort_mem (f : α → List ChangeRec × Option Abort) (l : List α)
    (a : Abort) (h : (foldAbort f l).2 = some a) : ∃ x ∈ l, (f x).2 = some a := by
  induction l with
  | nil => simp [foldAbort] at h
  | cons x xs ih =>
      simp only [foldAbort] at h
      rcases hfx : f x with ⟨rs, a'⟩
      rw [hfx] at h
      cases a' with
      | some a' =>
          simp at h; subst h
          exact ⟨x, by simp, by rw [hfx]⟩
      | none =>
          rcases hfa : foldAbort f xs with ⟨rs2, a2⟩
          rw [hfa] at h; simp at h; subst h
          rcases ih (by rw [hfa]) with ⟨y, hy, hya⟩
          exact ⟨y, by simp [hy], hya⟩

theorem storeLookup_mem (s : CStore) (k : Eid) (n : CNode)
    (h : storeLookup s k = some n) : k ∈ storeKeys s := by
  have hmem := List.mem_of_find?_eq_some h
  have hk := List.find?_some h
  simp only [decide_eq_true_eq] at hk
  subst hk
  simp only [storeKeys, List.mem_dedup]
  exact List.mem_map_of_mem _ hmem

theorem storeLookup_none_of_not_mem (s : CStore) (k : Eid)
    (h : k ∉ storeKeys s) : storeLookup s k = Option.none := by
  rcases hl : storeLookup s k with _ | n
  · rfl
  · exact absurd (storeLookup_mem s k n hl) h

theorem storeLookup_isSome_of_mem (s : CStore) (k : Eid)
    (h : k ∈ storeKeys s) : (storeLookup s k).isSome := by
  simp only [storeKeys, List.mem_dedup, List.mem_map] at h
  rcases h with ⟨n, hn, hk⟩
  rcases hl : storeLookup s k with _ | m
  · exfalso
    have h2 := List.find?_eq_none.mp hl n hn
    simp [hk] at h2
  · simp

theorem updated_properties_mem (a : Option CNode) (i : CNode) (r : ChangeRec)
    (hr : r ∈ (updated_properties a i).1) :
    ∃ name ∈ propNames a i, ∃ l,
      diffProperty (eidOf a i) name (getProp i name) (getPropOpt a name) =
        Except.ok l ∧ r ∈ l := by
  rcases foldAbort_mem _ _ r hr with ⟨name, hname, hmem⟩
  refine ⟨name, hname, ?_⟩
  rcases hd : diffProperty (eidOf a i) name (getProp i name) (getPropOpt a name)
    with e | l
  · simp [diffStep, hd] at hmem
  · exact ⟨l, rfl, by simpa [diffStep, hd] using hmem⟩

theorem updated_properties_propName (a : Option CNode) (i : CNode) (r : ChangeRec)
    (hr : r ∈ (updated_properties a i).1) : (propNameOf r).isSome := by
  rcases updated_properties_mem a i r hr with ⟨name, _, l, hl, hrl⟩
  rw [diffProperty_propName _ _ _ _ _ hl r hrl]
  rfl

theorem updated_properties_none_abort (i : CNode) :
    (updated_properties Option.none i).2 = Option.none := by
  apply foldAbort_none
  intro name _
  rcases diffProperty_none_ok (eidOf Option.none i) name (getProp i name) with ⟨l, hl⟩
  simp [diffStep, getPropOpt, hl]

theorem updated_properties_aligned_abort (a i : CNode) (h : alignedPair a i) :
    (updated_properties (some a) i).2 = Option.none := by
  apply foldAbort_none
  intro name hname
  rcases diffProperty_ok_of_kindOk (eidOf (some a) i) name (getProp i name)
      (getProp a name) (h name hname) with ⟨l, hl⟩
  simp [diffStep, getPropOpt, hl]

theorem addStep_no_abort (incoming : CStore) (k : Eid) :
    (addStep incoming k).2 = Option.none := by
  unfold addStep
  rcases storeLookup incoming k with _ | e
  · rfl
  · simp only []
    split
    · rfl
    · have := updated_properties_none_abort e
      rcases hu : updated_properties Option.none e with ⟨ur, ua⟩
      rw [hu] at this
      simpa [hu] using this

/-- Decomposition of the records emitted by `compare`: every record comes from
the removed-keys loop, an added-key step, a shared-key step, or phase 3. -/
theorem compare_mem (ancestor incoming : CStore) (r : ChangeRec)
    (hr : r ∈ (compare' ancestor incoming).1) :
    (∃ k ∈ removedKeys ancestor incoming, removeRecOf ancestor k = some r) ∨
    (∃ k ∈ addedKeys ancestor incoming, r ∈ (addStep incoming k).1) ∨
    (∃ k ∈ sharedKeys ancestor incoming, r ∈ (sharedStep ancestor incoming k).1) ∨
    r ∈ (phase3Part ancestor incoming).1 := by
  unfold compare' at hr
  rcases h2 : foldAbort (addStep incoming) (addedKeys ancestor incoming) with ⟨r2, a2⟩
  rw [h2] at hr
  cases a2 with
  | some ab =>
      simp only [List.mem_append] at hr
      rcases hr with h | h
      · rcases List.mem_filterMap.mp h with ⟨k, hk, hrk⟩
        exact Or.inl ⟨k, hk, hrk⟩
      · exact Or.inr (Or.inl (foldAbort_mem _ _ r (by rw [h2]; exact h)))
  | none =>
      rcases h3 : foldAbort (sharedStep ancestor incoming) (sharedKeys ancestor incoming)
        with ⟨r3, a3⟩
      rw [h3] at hr
      cases a3 with
      | some ab =>
          simp only [List.mem_append] at hr
          rcases hr with (h | h) | h
          · rcases List.mem_filterMap.mp h with ⟨k, hk, hrk⟩
            exact Or.inl ⟨k, hk, hrk⟩
          · exact Or.inr (Or.inl (foldAbort_mem _ _ r (by rw [h2]; exact h)))
          · exact Or.inr (Or.inr (Or.inl (foldAbort_mem _ _ r (by rw [h3]; exact h))))
      | none =>
          rcases h4 : phase3Part ancestor incoming with ⟨r4, a4⟩
          rw [h4] at hr
          simp only [List.mem_append] at hr
          rcases hr with ((h | h) | h) | h
          · rcases List.mem_filterMap.mp h with ⟨k, hk, hrk⟩
            exact Or.inl ⟨k, hk, hrk⟩
          · exact Or.inr (Or.inl (foldAbort_mem _ _ r (by rw [h2]; exact h)))
          · exact Or.inr (Or.inr (Or.inl (foldAbort_mem _ _ r (by rw [h3]; exact h))))
          · exact Or.inr (Or.inr (Or.inr (by simp only [h4]; exact h)))

theorem recordsFor_append (name : String) (a b : List ChangeRec) :
    recordsFor name (a ++ b) = recordsFor name a ++ recordsFor name b := by
  simp [recordsFor]

theorem recordsFor_flatMap (name : String) (l : List α) (g : α → List ChangeRec) :
    recordsFor name (l.flatMap g) = l.flatMap (fun x => recordsFor name (g x)) := by
  induction l with
  | nil => rfl
  | cons x xs ih => simp [List.flatMap_cons, recordsFor_append, ih]

theorem flatMap_eq_single (l : List α) (h : α → List β) (x : α)
    (hnd : l.Nodup) (hx : x ∈ l) (hother : ∀ y ∈ l, y ≠ x → h y = []) :
    l.flatMap h = h x := by
  induction l with
  | nil => simp at hx
  | cons y ys ih =>
      rcases List.mem_cons.mp hx with rfl | hx'
      · have hrest : ys.flatMap h = [] := by
          apply List.flatMap_eq_nil_iff.mpr
          intro z hz
          exact hother z (by simp [hz]) (by rintro rfl; exact (List.nodup_cons.mp hnd).1 hz)
        simp [List.flatMap_cons, hrest]
      · have hy : h y = [] := hother y (by simp) (by rintro rfl; exact (List.nodup_cons.mp hnd).1 hx')
        simp [List.flatMap_cons, hy]
        exact ih (List.nodup_cons.mp hnd).2 hx'
          (fun z hz hne => hother z (by simp [hz]) hne)

theorem propNames_nodup (a : Option CNode) (i : CNode) : (propNames a i).Nodup :=
  (List.nodup_dedup _).filter _

/-- Whether the typed pair at a shared key is kind-aligned (vacuous when the
key misses either store). -/
def typedPairAligned (ancestor incoming : CStore) (k : Eid) : Prop :=
  ∀ a i, storeLookup ancestor k = some a → storeLookup incoming k = some i →
    a.typeName = i.typeName → alignedPair a i

instance (ancestor incoming : CStore) (k : Eid) :
    Decidable (typedPairAligned ancestor incoming k) := by
  unfold typedPairAligned
  rcases hA : storeLookup ancestor k with _ | a
  · exact isTrue (fun a i h1 _ _ => by cases h1)
  · rcases hI : storeLookup incoming k with _ | i
    · exact isTrue (fun a i _ h2 _ => by cases h2)
    · refine decidable_of_iff (a.typeName = i.typeName → alignedPair a i) ⟨?_, ?_⟩
      · intro h a' i' h1 h2 hty
        rw [Option.some.injEq] at h1 h2
        subst h1; subst h2
        exact h hty
      · intro h
        exact h a i rfl rfl

/-- C1 counterexample: ancestor holds `a : TypeA` and `b : TypeB`, incoming
holds `a : TypeC`.  The fully consumed `compare` raises `UnmatchableModel`
for `a`, but the `ElementChange(remove)` record for `b` had already been
inserted into the current store: the call does emit partial changes. -/
def c1AncA : CNode := ⟨"a", "TypeA", "L", false, false, Option.none, []⟩

def c1AncB : CNode := ⟨"b", "TypeB", "L", false, false, Option.none, []⟩

def c1IncA : CNode := ⟨"a", "TypeC", "L", false, false, Option.none, []⟩

/-- C1, counterexample: a type-mismatched shared id makes `compare` raise, but
a change record for another key was already emitted — "emits no partial
changes" fails on this input. -/
theorem compare_unmatchable_partial_counterexample :
    (compare' [c1AncA, c1AncB] [c1IncA]).2 =
      some (Abort.unmatchable "a" "TypeA" "TypeC") ∧
    (compare' [c1AncA, c1AncB] [c1IncA]).1 =
      [ChangeRec.elementChange "remove" "TypeB" "L" "b" Option.none] ∧
    (compare' [c1AncA, c1AncB] [c1IncA]).1 ≠ [] := by decide

/-- C1, amended: whenever some identifier is bound in both ancestor and
incoming to nodes of different types (and the well-typed shared pairs are
kind-aligned, so no assertion fires first), `compare` raises the fatal
`UnmatchableModel` error; change records created for keys processed before
the mismatch remain inserted in the current store (see the counterexample),
and no record of the mismatched pair itself is emitted. -/
theorem compare_unmatchable_aborts (ancestor incoming : CStore)
    (hmis : ∃ k a i, storeLookup ancestor k = some a ∧
      storeLookup incoming k = some i ∧ a.typeName ≠ i.typeName)
    (halign : ∀ k ∈ sharedKeys ancestor incoming,
      typedPairAligned ancestor incoming k) :
    ∃ k ta ti, (compare' ancestor incoming).2 = some (Abort.unmatchable k ta ti) ∧
      ta ≠ ti := by
  rcases hmis with ⟨k, a, i, hka, hki, hne⟩
  have hkA : k ∈ storeKeys ancestor := storeLookup_mem _ _ _ hka
  have hkI : k ∈ storeKeys incoming := storeLookup_mem _ _ _ hki
  have hks : k ∈ sharedKeys ancestor incoming := by
    simp only [sharedKeys, List.mem_filter]
    exact ⟨hkA, by simpa using hkI⟩
  have hstep : (sharedStep ancestor incoming k).2 =
      some (Abort.unmatchable k a.typeName i.typeName) := by
    simp [sharedStep, hka, hki, hne]
  have h2none : (foldAbort (addStep incoming) (addedKeys ancestor incoming)).2 =
      Option.none :=
    foldAbort_none _ _ (fun x _ => addStep_no_abort incoming x)
  have h3some : (foldAbort (sharedStep ancestor incoming)
      (sharedKeys ancestor incoming)).2.isSome :=
    foldAbort_isSome _ _ ⟨k, hks, by rw [hstep]; rfl⟩
  have habort : ∀ ab, (foldAbort (sharedStep ancestor incoming)
      (sharedKeys ancestor incoming)).2 = some ab →
      ∃ k' ta ti, ab = Abort.unmatchable k' ta ti ∧ ta ≠ ti := by
    intro ab hab
    rcases foldAbort_abort_mem _ _ ab hab with ⟨k', hk', hstep'⟩
    have hk'A : k' ∈ storeKeys ancestor := (List.mem_filter.mp hk').1
    have hk'I : k' ∈ storeKeys incoming := by
      have := (List.mem_filter.mp hk').2
      simpa using this
    rcases Option.isSome_iff_exists.mp (storeLookup_isSome_of_mem _ _ hk'A) with ⟨a', ha'⟩
    rcases Option.isSome_iff_exists.mp (storeLookup_isSome_of_mem _ _ hk'I) with ⟨i', hi'⟩
    by_cases hty : a'.typeName = i'.typeName
    · exfalso
      have hal := halign k' hk' a' i' ha' hi' hty
      have : (sharedStep ancestor incoming k').2 = Option.none := by
        simp [sharedStep, ha', hi', hty]
        exact updated_properties_aligned_abort a' i' hal
      rw [this] at hstep'
      cases hstep'
    · have : (sharedStep ancestor incoming k') =
          ([], some (Abort.unmatchable k' a'.typeName i'.typeName)) := by
        simp [sharedStep, ha', hi', hty]
      rw [this] at hstep'
      simp at hstep'
      exact ⟨k', a'.typeName, i'.typeName, hstep'.symm, hty⟩
  unfold compare'
  rcases h2 : foldAbort (addStep incoming) (addedKeys ancestor incoming) with ⟨r2, a2⟩
  rw [h2] at h2none
  simp only at h2none
  subst h2none
  rcases h3 : foldAbort (sharedStep ancestor incoming) (sharedKeys ancestor incoming)
    with ⟨r3, a3⟩
  rw [h3] at h3some
  simp only at h3some
  rcases Option.isSome_iff_exists.mp h3some with ⟨ab, hab⟩
  subst hab
  rcases habort ab (by rw [h3]) with ⟨k', ta, ti, rfl, hne'⟩
  exact ⟨k', ta, ti, rfl, hne'⟩

/-- C1 witness: the amended theorem applied to the concrete counterexample
stores. -/
theorem compare_unmatchable_aborts_witness :
    ∃ k ta ti, (compare' [c1AncA, c1AncB] [c1IncA]).2 =
      some (Abort.unmatchable k ta ti) ∧ ta ≠ ti :=
  compare_unmatchable_aborts [c1AncA, c1AncB] [c1IncA]
    ⟨"a", c1AncA, c1IncA, by decide, by decide, by decide⟩ (by decide)

/-- C4: for a node pair compared in Phase 2 and a collection-valued property
(with duplicate-free memberships, as the data model prescribes), the records
emitted for that property are exactly one `RefChange(add)` per identifier in
the incoming collection but not the ancestor's and one `RefChange(remove)`
per identifier in the ancestor's but not the incoming's; every emitted record
is such an add or remove (so never an update, and nothing for identifiers
present on both sides); and equal memberships — in particular a pure
reordering — produce no record at all. -/
theorem collection_diff_minimal (aN iN : CNode) (name : String)
    (oids vids : List Eid)
    (hname : name ∈ propNames (some aN) iN)
    (ha : getProp aN name = CVal.coll oids) (hi : getProp iN name = CVal.coll vids)
    (hoN : oids.Nodup) (hvN : vids.Nodup) (halign : alignedPair aN iN) :
    recordsFor name (updated_properties (some aN) iN).1 =
      (vids.filter (fun v => ¬ oids.contains v)).map
        (fun v => ChangeRec.refChange "add" aN.id name (some v)) ++
      (oids.filter (fun o => ¬ vids.contains o)).map
        (fun o => ChangeRec.refChange "remove" aN.id name (some o)) ∧
    (∀ r ∈ recordsFor name (updated_properties (some aN) iN).1,
      ∃ x, (r = ChangeRec.refChange "add" aN.id name (some x) ∧ x ∈ vids ∧ x ∉ oids) ∨
           (r = ChangeRec.refChange "remove" aN.id name (some x) ∧ x ∈ oids ∧ x ∉ vids)) ∧
    (∀ x, x ∈ vids → x ∉ oids →
      (recordsFor name (updated_properties (some aN) iN).1).count
        (ChangeRec.refChange "add" aN.id name (some x)) = 1) ∧
    (∀ x, x ∈ oids → x ∉ vids →
      (recordsFor name (updated_properties (some aN) iN).1).count
        (ChangeRec.refChange "remove" aN.id name (some x)) = 1) ∧
    ((∀ x, x ∈ vids ↔ x ∈ oids) →
      recordsFor name (updated_properties (some aN) iN).1 = []) := by
  have heid : eidOf (some aN) iN = aN.id := rfl
  have hstepnone : ∀ n ∈ propNames (some aN) iN,
      ((fun n => diffStep (eidOf (some aN) iN) n (getProp iN n)
        (getPropOpt (some aN) n)) n).2 = Option.none := by
    intro n hn
    rcases diffProperty_ok_of_kindOk (eidOf (some aN) iN) n (getProp iN n)
      (getProp aN n) (halign n hn) with ⟨l, hl⟩
    simp [diffStep, getPropOpt, hl]
  have hupd := foldAbort_all_none_eq _ _ hstepnone
  have hrecs : recordsFor name (updated_properties (some aN) iN).1 =
      recordsFor name (diffStep aN.id name (getProp iN name)
        (getPropOpt (some aN) name)).1 := by
    rw [updated_properties, hupd]
    simp only []
    rw [recordsFor_flatMap]
    rw [flatMap_eq_single _ _ name (propNames_nodup (some aN) iN) hname]
    · rw [heid]
    · intro y hy hyne
      apply List.filter_eq_nil_iff.mpr
      intro r hr
      rcases hd : diffProperty (eidOf (some aN) iN) y (getProp iN y)
        (getPropOpt (some aN) y) with e | l
      · simp [diffStep, hd] at hr
      · have hrl : r ∈ l := by simpa [diffStep, hd] using hr
        have := diffProperty_propName _ _ _ _ _ hd r hrl
        simp [recordsFor, this, hyne]
  have hval : diffStep aN.id name (getProp iN name) (getPropOpt (some aN) name) =
      ((vids.filter (fun v => ¬ oids.contains v)).map
        (fun v => ChangeRec.refChange "add" aN.id name (some v)) ++
       (oids.filter (fun o => ¬ vids.contains o)).map
        (fun o => ChangeRec.refChange "remove" aN.id name (some o)),
       Option.none) := by
    simp [diffStep, getPropOpt, ha, hi, diffProperty, diffPart1, diffPart2]
  have hmain : recordsFor name (updated_properties (some aN) iN).1 =
      (vids.filter (fun v => ¬ oids.contains v)).map
        (fun v => ChangeRec.refChange "add" aN.id name (some v)) ++
      (oids.filter (fun o => ¬ vids.contains o)).map
        (fun o => ChangeRec.refChange "remove" aN.id name (some o)) := by
    rw [hrecs, hval]
    apply List.filter_eq_self.mpr
    intro r hr
    rcases List.mem_append.mp hr with hm | hm <;>
      rcases List.mem_map.mp hm with ⟨x, hx, rfl⟩ <;> simp [propNameOf]
  refine ⟨hmain, ?_, ?_, ?_, ?_⟩
  · intro r hr
    rw [hmain] at hr
    rcases List.mem_append.mp hr with hm | hm <;>
      rcases List.mem_map.mp hm with ⟨x, hx, rfl⟩ <;>
      rcases List.mem_filter.mp hx with ⟨hx1, hx2⟩
    · exact ⟨x, Or.inl ⟨rfl, hx1, by simpa using hx2⟩⟩
    · exact ⟨x, Or.inr ⟨rfl, hx1, by simpa using hx2⟩⟩
  · intro x hxv hxo
    rw [hmain, List.count_append]
    have hinj : Function.Injective
        (fun v => ChangeRec.refChange "add" aN.id name (some v)) := by
      intro u v huv; simpa using huv
    have h1 : ((vids.filter (fun v => ¬ oids.contains v)).map
        (fun v => ChangeRec.refChange "add" aN.id name (some v))).count
        (ChangeRec.refChange "add" aN.id name (some x)) =
        (vids.filter (fun v => ¬ oids.contains v)).count x :=
      List.count_map_of_injective _ _ hinj x
    have h2 : ((oids.filter (fun o => ¬ vids.contains o)).map
        (fun o => ChangeRec.refChange "remove" aN.id name (some o))).count
        (ChangeRec.refChange "add" aN.id name (some x)) = 0 := by
      apply List.count_eq_zero.mpr
      intro hmem
      rcases List.mem_map.mp hmem with ⟨y, _, hy⟩
      simp at hy
    rw [h1, h2, Nat.add_zero]
    apply List.count_eq_one_of_mem (hvN.filter _)
    simp [List.mem_filter, hxv, hxo]
  · intro x hxo hxv
    rw [hmain, List.count_append]
    have hinj : Function.Injective
        (fun o => ChangeRec.refChange "remove" aN.id name (some o)) := by
      intro u v huv; simpa using huv
    have h1 : ((vids.filter (fun v => ¬ oids.contains v)).map
        (fun v => ChangeRec.refChange "add" aN.id name (some v))).count
        (ChangeRec.refChange "remove" aN.id name (some x)) = 0 := by
      apply List.count_eq_zero.mpr
      intro hmem
      rcases List.mem_map.mp hmem with ⟨y, _, hy⟩
      simp at hy
    have h2 : ((oids.filter (fun o => ¬ vids.contains o)).map
        (fun o => ChangeRec.refChange "remove" aN.id name (some o))).count
        (ChangeRec.refChange "remove" aN.id name (some x)) =
        (oids.filter (fun o => ¬ vids.contains o)).count x :=
      List.count_map_of_injective _ _ hinj x
    rw [h1, h2, Nat.zero_add]
    apply List.count_eq_one_of_mem (hoN.filter _)
    simp [List.mem_filter, hxo, hxv]
  · intro hiff
    have hv : vids.filter (fun v => ¬ oids.contains v) = [] := by
      apply List.filter_eq_nil_iff.mpr
      intro v hv
      simp [(hiff v).mp hv]
    have ho : oids.filter (fun o => ¬ vids.contains o) = [] := by
      apply List.filter_eq_nil_iff.mpr
      intro o ho
      simp [(hiff o).mpr ho]
    rw [hmain, hv, ho]
    rfl

/-- Concrete nodes for the C4 witness: ancestor collection `[p, q]`, incoming
collection `[q, r]`. -/
def c4Anc : CNode := ⟨"e", "T", "L", false, false, Option.none, [("m", CVal.coll ["p", "q"])]⟩

def c4Inc : CNode := ⟨"e", "T", "L", false, false, Option.none, [("m", CVal.coll ["q", "r"])]⟩

/-- C4 witness: the collection-diff theorem applied to the spec's worked
example — exactly one add for `r` and one remove for `p`. -/
theorem collection_diff_minimal_witness :
    recordsFor "m" (updated_properties (some c4Anc) c4Inc).1 =
      [ChangeRec.refChange "add" "e" "m" (some "r"),
       ChangeRec.refChange "remove" "e" "m" (some "p")] :=
  (collection_diff_minimal c4Anc c4Inc "m" ["p", "q"] ["q", "r"]
    (by decide) (by decide) (by decide) (by decide) (by decide) (by decide)).1

/-- C7: in Phase 2, a scalar whose value differs (by Python `==`) from the
prior scalar emits exactly one `ValueChange(update)` whose text/tag follow
the typing rules: `None ↦ (None, None)`, a string keeps its text with tag
`str`, a boolean is stringified with tag `bool`, an integer is stringified
with tag `int`, and the unlimited token `*` gets tag `UnlimitedNatural`. -/
theorem scalar_update_typing :
    (∀ (eid name : String) (v o : CVal), isScalar v = true → isScalar o = true →
      pyEq v o = false →
      diffProperty eid name v o = Except.ok
        [ChangeRec.valueChange "update" eid name
          (set_value_change_property_value v).1
          (set_value_change_property_value v).2]) ∧
    set_value_change_property_value CVal.none = (Option.none, Option.none) ∧
    (∀ s, set_value_change_property_value (CVal.str s) = (some s, some "str")) ∧
    (∀ b, set_value_change_property_value (CVal.bool b) =
      (some (if b then "True" else "False"), some "bool")) ∧
    (∀ n : Int, set_value_change_property_value (CVal.int n) =
      (some (toString n), some "int")) ∧
    set_value_change_property_value CVal.star =
      (some "*", some "UnlimitedNatural") := by
  refine ⟨?_, rfl, fun s => rfl, fun b => rfl, fun n => rfl, rfl⟩
  intro eid name v o hv ho hne
  cases v <;> cases o <;>
    first
    | (simp [isScalar] at hv ho; done)
    | simp [diffProperty, diffPart1, diffPart2, hne]

/-- C7 witness: the scalar-typing theorem applied to the spec's scalar
example (name changed from `X` to `Y`). -/
theorem scalar_update_typing_witness :
    diffProperty "e" "name" (CVal.str "Y") (CVal.str "X") = Except.ok
      [ChangeRec.valueChange "update" "e" "name" (some "Y") (some "str")] :=
  scalar_update_typing.1 "e" "name" (CVal.str "Y") (CVal.str "X")
    (by decide) (by decide) (by decide)

/-- Concrete stores for C5: each snapshot holds one style sheet, with
different ids. -/
def c5SheetAnc : CNode :=
  ⟨"s1", "StyleSheet", "Core", true, false, Option.none, [("css", CVal.str "x")]⟩

def c5SheetInc : CNode :=
  ⟨"s2", "StyleSheet", "Core", true, false, Option.none, [("css", CVal.str "x")]⟩

def c5SheetInc2 : CNode :=
  ⟨"s2", "StyleSheet", "Core", true, false, Option.none, [("css", CVal.str "y")]⟩

def c5Plain : CNode := ⟨"x", "T", "L", false, false, Option.none, []⟩

/-- C5: `compare` never emits an `ElementChange` for a style-sheet node (for
any pair of snapshots, an emitted `ElementChange`'s id resolves, in whichever
store holds it, to a non-style-sheet node); two snapshots holding one style
sheet each with different ids and identical properties produce zero records,
while differing properties on such sheets still produce the property-level
record through the forced Phase 2 diff. -/
theorem style_sheet_exemption :
    (∀ (ancestor incoming : CStore) (op nm ml : String) (k : Eid) (d : Option Eid),
      ChangeRec.elementChange op nm ml k d ∈ (compare' ancestor incoming).1 →
      (∀ n, storeLookup ancestor k = some n → n.isStyleSheet = false) ∧
      (∀ n, storeLookup incoming k = some n → n.isStyleSheet = false)) ∧
    compare' [c5SheetAnc] [c5SheetInc] = ([], Option.none) ∧
    compare' [c5SheetAnc] [c5SheetInc2] =
      ([ChangeRec.valueChange "update" "s1" "css" (some "y") (some "str")],
       Option.none) := by
  refine ⟨?_, by decide, by decide⟩
  intro ancestor incoming op nm ml k d hmem
  rcases compare_mem ancestor incoming _ hmem with h | h | h | h
  · -- removed-keys loop
    rcases h with ⟨k', hk', hrec⟩
    rcases hl : storeLookup ancestor k' with _ | e <;>
      simp only [removeRecOf, hl] at hrec
    · cases hrec
    · by_cases hss : e.isStyleSheet = true
      · simp [hss] at hrec
      · simp only [hss, if_false, Bool.false_eq_true, Option.some.injEq,
          ChangeRec.elementChange.injEq] at hrec
        obtain ⟨-, -, -, rfl, -⟩ := hrec
        constructor
        · intro n hn
          rw [hl, Option.some.injEq] at hn
          subst hn
          simpa using hss
        · intro n hn
          have hnotin : k' ∉ storeKeys incoming := by
            have := (List.mem_filter.mp hk').2
            simpa using this
          rw [storeLookup_none_of_not_mem incoming k' hnotin] at hn
          cases hn
  · -- added-keys loop
    rcases h with ⟨k', hk', hrec⟩
    rcases hl : storeLookup incoming k' with _ | e <;>
      simp only [addStep, hl] at hrec
    · simp at hrec
    · by_cases hss : e.isStyleSheet = true
      · simp [hss] at hrec
      · rcases hu : updated_properties Option.none e with ⟨ur, ua⟩
        simp only [hss, if_false, Bool.false_eq_true, hu, List.mem_cons] at hrec
        rcases hrec with heq | hmem'
        · simp only [ChangeRec.elementChange.injEq] at heq
          obtain ⟨-, -, -, rfl, -⟩ := heq
          constructor
          · intro n hn
            have hnotin : k ∉ storeKeys ancestor := by
              have := (List.mem_filter.mp hk').2
              simpa using this
            rw [storeLookup_none_of_not_mem ancestor k hnotin] at hn
            cases hn
          · intro n hn
            rw [hl, Option.some.injEq] at hn
            subst hn
            simpa using hss
        · exfalso
          have := updated_properties_propName Option.none e _
            (by rw [hu]; exact hmem')
          simp [propNameOf] at this
  · -- shared-keys loop: only property records
    exfalso
    rcases h with ⟨k', hk', hrec⟩
    rcases hla : storeLookup ancestor k' with _ | a <;>
      rcases hli : storeLookup incoming k' with _ | i <;>
      simp only [sharedStep, hla, hli] at hrec <;>
      try (simp at hrec; done)
    by_cases hty : a.typeName ≠ i.typeName
    · simp [hty] at hrec
    · rw [if_neg hty] at hrec
      have := updated_properties_propName (some a) i _ hrec
      simp [propNameOf] at this
  · -- phase 3: only property records
    exfalso
    rcases hsa : lastSS ancestor (removedKeys ancestor incoming) with _ | sa <;>
      rcases hsi : lastSS incoming (addedKeys ancestor incoming) with _ | si <;>
      simp only [phase3Part, hsa, hsi] at h <;>
      try (simp at h; done)
    by_cases hid : sa.id ≠ si.id
    · rw [if_pos hid] at h
      have := updated_properties_propName (some sa) si _ h
      simp [propNameOf] at this
    · rw [if_neg hid] at h
      simp at h

/-- C5 witness: the general exemption statement applied to a concrete remove
record (plain element present only in the ancestor). -/
theorem style_sheet_exemption_witness : c5Plain.isStyleSheet = false :=
  (style_sheet_exemption.1 [c5Plain] [] "remove" "T" "L" "x" Option.none
    (by decide)).1 c5Plain (by decide)

/-! ## Part 2: copy/paste (`gaphor/diagram/copypaste.py`) -/

/-- Identifiers on the copy/paste side.  `orig` is an identifier an element
already carries; `fresh n` is the `n`-th identifier generated by
`ElementFactory.create` during a paste.

Modelled from the spec: ids are process-unique and assigned at creation
(uuids in the source, whose generator lives outside `src/`), so a freshly
generated id never collides with a pre-existing one; the two constructors
encode exactly that disjointness. -/
inductive PId where
  | orig (s : String)
  | fresh (n : Nat)
  deriving Repr, DecidableEq

/-- The runtime class passed to `create`: its name and whether it is a
subclass of `Presentation`. -/
structure ClsDesc where
  name : String
  pres : Bool
  deriving Repr, DecidableEq

/-- A value passed to `element.load(name, value)`: the raw string of a `"v"`
payload, or a resolved element reference. -/
inductive LVal where
  | str (s : String)
  | ref (id : PId)
  deriving Repr, DecidableEq

/-- An element of the target model as paste observes and mutates it: its
class, the `load` calls received so far (in order), its `parent` (set for
pasted presentations), the diagram it was created on (via `diagram.create`),
and how many times `postload()` has run. -/
structure Elem where
  cls : ClsDesc
  props : List (String × LVal)
  parent : Option PId
  diagId : Option PId
  postloads : Nat
  deriving Repr, DecidableEq

/-- First-match association lookup (used with unique-key lists). -/
def alook (k : PId) : List (PId × β) → Option β
  | [] => Option.none
  | (k', v) :: rest => if k' = k then some v else alook k rest

/-- Python-dict insertion: overwrite in place if the key exists, else append
(preserving insertion order). -/
def dinsert (k : PId) (v : β) : List (PId × β) → List (PId × β)
  | [] => [(k, v)]
  | (k', v') :: rest =>
      if k' = k then (k', v) :: rest else (k', v') :: dinsert k v rest

/-- The target model (`diagram.model`): its elements and the fresh-id
counter feeding `create`. -/
structure Model where
  elems : List (PId × Elem)
  fresh : Nat
  deriving Repr, DecidableEq

def Model.lookupE (m : Model) (i : PId) : Option Elem := alook i m.elems

/-- `model.create(cls)` / `diagram.create(cls)`: a new element under a fresh
id (attached to a diagram when created through one). -/
def Model.createE (m : Model) (c : ClsDesc) (diag : Option PId) : PId × Model :=
  (PId.fresh m.fresh,
   ⟨(PId.fresh m.fresh, ⟨c, [], Option.none, diag, 0⟩) :: m.elems, m.fresh + 1⟩)

/-- In-place mutation of the element stored under `i` (keys untouched). -/
def modAssoc (i : PId) (f : Elem → Elem) : List (PId × Elem) → List (PId × Elem)
  | [] => []
  | (k, v) :: rest => (k, if k = i then f v else v) :: modAssoc i f rest

def Model.modifyE (m : Model) (i : PId) (f : Elem → Elem) : Model :=
  ⟨modAssoc i f m.elems, m.fresh⟩

/-- `element.load(name, value)`: record the load. -/
def Model.loadProp (m : Model) (i : PId) (name : String) (v : LVal) : Model :=
  m.modifyE i (fun e => ⟨e.cls, e.props ++ [(name, v)], e.parent, e.diagId, e.postloads⟩)

/-- `element.postload()`. -/
def Model.postloadE (m : Model) (i : PId) : Model :=
  m.modifyE i (fun e => ⟨e.cls, e.props, e.parent, e.diagId, e.postloads + 1⟩)

/-- `item.parent = p`. -/
def Model.setParentE (m : Model) (i : PId) (p : PId) : Model :=
  m.modifyE i (fun e => ⟨e.cls, e.props, some p, e.diagId, e.postloads⟩)

/-- A serialized property payload, the `(vtype, value)` pairs of the source:
`("r", id)`, `("c", [...])`, `("v", str(value))`, or any pair with an
unrecognized tag (whose payload `deserialize` never inspects). -/
inductive Ser where
  | r (id : PId)
  | c (items : List Ser)
  | v (s : String)
  | other (tag : String) (payload : String)
  deriving Repr

/-- A property value as an element's `save` reports it to `copy_base_data`:
an element reference, a `collection`, or a plain value (`bool` before `int`,
as in the source's `isinstance` checks). -/
inductive PValue where
  | base (id : PId)
  | coll (items : List PValue)
  | bool (b : Bool)
  | int (n : Int)
  | str (s : String)
  | none
  deriving Repr

mutual
/-- Transcription of `serialize`: a `Base` maps to `("r", id)`, a collection
to `("c", [serialize(v) ...])`, anything else to `("v", str(value))` with
booleans first converted by `int(value)` (so `True ↦ "1"`, `False ↦ "0"`);
`str` of a string is itself and `str(None)` is `"None"`. -/
def serialize : PValue → Ser
  | .base i => .r i
  | .coll l => .c (serializeList l)
  | .bool b => .v (toString (if b then (1 : Int) else 0))
  | .int n => .v (toString n)
  | .str s => .v s
  | .none => .v "None"
def serializeList : List PValue → List Ser
  | [] => []
  | v :: rest => serialize v :: serializeList rest
end

/-- The paste-pass state: the target model and the memoizing `new_elements`
dict (original id ↦ resolved element), updated in place by the
`element_lookup` closure. -/
structure PasteState where
  model : Model
  newElements : List (PId × PId)
  deriving Repr, DecidableEq

mutual
/-- Transcription of `deserialize(ser, lookup)`, eagerly collecting the
generator's yields (the spec notes eager collection is equivalent as bundles
are fully consumed): a `"r"` payload yields the resolved element or nothing
(dangling references are dropped silently), a `"c"` payload flattens the
recursive deserialization of its items, a `"v"` payload yields the raw
value, and a pair with any unrecognized tag matches no branch and yields
nothing.  `lk` is the (state-passing) lookup callback. -/
def deserializeM (lk : PId → PasteState → Option PId × PasteState) :
    Ser → PasteState → List LVal × PasteState
  | .r i, s =>
      match lk i s with
      | (some e, s') => ([LVal.ref e], s')
      | (Option.none, s') => ([], s')
  | .c items, s => deserializeListM lk items s
  | .v v, s => ([LVal.str v], s)
  | .other _ _, s => ([], s)
def deserializeListM (lk : PId → PasteState → Option PId × PasteState) :
    List Ser → PasteState → List LVal × PasteState
  | [], s => ([], s)
  | it :: rest, s =>
      let (vs, s') := deserializeM lk it s
      let (vs2, s'') := deserializeListM lk rest s'
      (vs ++ vs2, s'')
end

/-- The property-loading loop shared by `paste_element` and
`_paste_presentation`: for each serialized property, deserialize it through
the lookup closure and `load` every resolved value into element `nid`. -/
def loadProps (lk : PId → PasteState → Option PId × PasteState) (nid : PId) :
    List (String × Ser) → PasteState → PasteState
  | [], s => s
  | (name, ser) :: rest, s =>
      let (vals, s') := deserializeM lk ser s
      let s'' := vals.foldl
        (fun st v => PasteState.mk (st.model.loadProp nid name v) st.newElements) s'
      loadProps lk nid rest s''

/-- A bundle entry: `BaseCopy(cls, id, data)` for a plain element, or
`PresentationCopy(cls, data, diagram, parent)` for a presentation. -/
inductive CopyRecord where
  | base (cls : ClsDesc) (id : PId) (data : List (String × Ser))
  | pres (cls : ClsDesc) (data : List (String × Ser)) (diagram : PId)
      (parent : Option PId)
  deriving Repr

/-- `CopyData(elements, diagram_refs)`: the bundle. -/
structure CopyData where
  elements : List (PId × CopyRecord)
  diagram_refs : List PId
  deriving Repr

/-- Whether `looked_up` is a live non-`Presentation` element
(`looked_up and not isinstance(looked_up, Presentation)`). -/
def isLiveNonPresentation : Option Elem → Bool
  | some e => !e.cls.pres
  | Option.none => false

/-- Modelled from the spec: `diagram.lookup(ref)` resolves a reference
against the target diagram's own index — the elements sitting on that
diagram (`Diagram.lookup` itself lives outside `src/`). -/
def diagramIndexLookup (targetD : PId) (m : Model) (ref : PId) : Option PId :=
  match m.lookupE ref with
  | some e => if e.diagId = some targetD then some ref else Option.none
  | Option.none => Option.none

/-- Transcription of `paste_element(copy_data, diagram, lookup)` as invoked
through the two-step `paste` protocol of `element_lookup`: create the
element, memoize it under its original id (`new_elements[ref] = next(paster)`
runs before the generator's second step), then load every deserialized
property and call `postload()`. -/
def paste_element (lk : PId → PasteState → Option PId × PasteState) (ref : PId)
    (cls : ClsDesc) (data : List (String × Ser)) (s : PasteState) :
    Option PId × PasteState :=
  match s.model.createE cls Option.none with
  | (nid, m') =>
    let s1 : PasteState := ⟨m', dinsert ref nid s.newElements⟩
    let s2 := loadProps lk nid data s1
    (some nid, ⟨s2.model.postloadE nid, s2.newElements⟩)

/-- Transcription of `_paste_presentation(copy_data, _diagram, lookup)` as
invoked through the two-step `paste` protocol: resolve the diagram (before
the first yield, hence before memoization), create the item on it, memoize,
resolve and set the structural parent if any, then load the properties.
No `postload` call of its own. -/
def paste_presentation (lk : PId → PasteState → Option PId × PasteState)
    (ref : PId) (cls : ClsDesc) (data : List (String × Ser)) (diagRef : PId)
    (parent : Option PId) (s : PasteState) : Option PId × PasteState :=
  match lk diagRef s with
  | (Option.none, s1) => (Option.none, s1)
  | (some dId, s1) =>
    match s1.model.createE cls (some dId) with
    | (nid, m') =>
      let s2 : PasteState := ⟨m', dinsert ref nid s1.newElements⟩
      let s3 :=
        match parent with
        | some pRef =>
            match lk pRef s2 with
            | (some p, s') => PasteState.mk (s'.model.setParentE nid p) s'.newElements
            | (Option.none, s') => s'
        | Option.none => s2
      (some nid, loadProps lk nid data s3)

/-- Transcription of the memoizing `element_lookup(ref)` closure of
`_paste`, with a fuel bound standing in for Python's unbounded recursion
(the source recursion terminates on bundles produced by `copy` because every
paste memoizes its element before resolving properties; exhausted fuel
returns an unresolved reference and corresponds to the unreachable
non-terminating case).  Steps, in source order: the `new_elements` memo
(which initially maps every copied diagram to the paste target); in link
mode, a live non-presentation element of the target model; the bundle (a
two-phase `paste`: create, memoize, then populate); in full mode, a live
non-presentation element as fallback; finally the target diagram's own
index. -/
def element_lookup (cd : CopyData) (full : Bool) (targetD : PId) :
    Nat → PId → PasteState → Option PId × PasteState
  | 0, _, s => (Option.none, s)
  | Nat.succ fuel, ref, s =>
    match alook ref s.newElements with
    | some e => (some e, s)
    | Option.none =>
      let lookedUp := s.model.lookupE ref
      if !full && isLiveNonPresentation lookedUp then (some ref, s)
      else
        match alook ref cd.elements with
        | some (CopyRecord.base cls _ data) =>
            paste_element (element_lookup cd full targetD fuel) ref cls data s
        | some (CopyRecord.pres cls data diagRef parent) =>
            paste_presentation (element_lookup cd full targetD fuel) ref cls data
              diagRef parent s
        | Option.none =>
            if full && isLiveNonPresentation lookedUp then (some ref, s)
            else
              match diagramIndexLookup targetD s.model ref with
              | some e => (some e, s)
              | Option.none => (Option.none, s)

/-- The outer pass of `_paste` over all bundle keys (already-resolved ids
are skipped, results are discarded). -/
def pasteLoop (cd : CopyData) (full : Bool) (targetD : PId) (fuel : Nat) :
    List PId → PasteState → PasteState
  | [], s => s
  | k :: ks, s =>
      let s' :=
        if (alook k s.newElements).isSome then s
        else (element_lookup cd full targetD fuel k s).2
      pasteLoop cd full targetD fuel ks s'

/-- The closing loop of `_paste`: `postload()` on every value of
`new_elements`. -/
def finalPostload (s : PasteState) : PasteState :=
  ⟨s.newElements.foldl (fun m p => m.postloadE p.2) s.model, s.newElements⟩

/-- The fuel `_paste` runs with: ample for every bundle produced by `copy`
(each nested resolution either hits the memo or consumes a bundle entry). -/
def pasteFuel (cd : CopyData) : Nat := 2 * cd.elements.length + 2

/-- The initial paste state: `new_elements = dict.fromkeys(diagram_refs,
diagram)` maps every copied diagram id to the paste target. -/
def pasteInit (cd : CopyData) (targetD : PId) (m : Model) : PasteState :=
  ⟨m, cd.diagram_refs.foldl (fun d r => dinsert r targetD d) []⟩

/-- Transcription of `_paste(copy_data, diagram, full)`: resolve every bundle
key through `element_lookup`, run the second `postload()` pass, and return
the new presentations attached to the target diagram (plus the final state,
which carries the mutated model the source leaves behind in
`diagram.model`). -/
def pasteAll (cd : CopyData) (targetD : PId) (m : Model) (full : Bool) :
    List PId × PasteState :=
  let s0 := pasteInit cd targetD m
  let s1 := pasteLoop cd full targetD (pasteFuel cd) (cd.elements.map Prod.fst) s0
  let s2 := finalPostload s1
  ((s2.newElements.filter (fun p =>
      match s2.model.lookupE p.2 with
      | some e => e.cls.pres && e.diagId == some targetD
      | Option.none => false)).map Prod.snd,
   s2)

/-- `paste_link(copy_data, diagram)`. -/
def paste_link (cd : CopyData) (targetD : PId) (m : Model) : List PId × PasteState :=
  pasteAll cd targetD m false

/-- `paste_full(copy_data, diagram)`. -/
def paste_full (cd : CopyData) (targetD : PId) (m : Model) : List PId × PasteState :=
  pasteAll cd targetD m true

/-! ### The copy side -/

/-- The three copyable node shapes `copy` dispatches over. -/
inductive SrcKind where
  | base
  | presentation
  | diagram
  deriving Repr, DecidableEq

/-- An element of the source graph as `copy_full` observes it: its id, class,
the name/value pairs `save` emits, its dispatch shape, and — for
presentations — its `subject`, `parent` and `diagram`; for diagrams its
`ownedPresentation` list.  `owner`/`owns` are the ownership collaborator —
Modelled from the spec: the `owner`/`owns` resolvers of
`gaphor.diagram.group` live outside `src/`; the spec describes them as a
derived containment relation, `owner` the inverse of `owns`, with element
identity decided by id (ids are unique per graph). -/
structure SrcElem where
  id : PId
  cls : ClsDesc
  props : List (String × PValue)
  kind : SrcKind
  subject : Option PId
  parent : Option PId
  diagram : PId
  ownedPresentation : List PId
  owner : Option PId
  owns : List PId
  deriving Repr

/-- The source graph: the universe `copy`'s recursive dispatch resolves
subjects and owned presentations in. -/
abbrev SrcStore := List SrcElem

def getSrc (src : SrcStore) (i : PId) : Option SrcElem :=
  src.find? (fun e => e.id == i)

/-- Transcription of `copy_base_data(element, blacklist)`: serialize every
saved property whose name is not blacklisted. -/
def copy_base_data (e : SrcElem) (blacklist : List String) :
    List (String × Ser) :=
  e.props.filterMap (fun p =>
    if blacklist.contains p.1 then Option.none else some (p.1, serialize p.2))

/-- Transcription of `copy_element(element, blacklist)`: a `BaseCopy` whose
data excludes the given blacklist plus `presentation`. -/
def copy_element (e : SrcElem) (blacklist : List String) : CopyRecord :=
  CopyRecord.base e.cls e.id (copy_base_data e (blacklist ++ ["presentation"]))

/-- Transcription of `copy_presentation(item)`: a `PresentationCopy`
excluding `diagram`, `parent` and `children`, remembering the diagram and
structural parent ids. -/
def copy_presentation (e : SrcElem) : CopyRecord :=
  CopyRecord.pres e.cls (copy_base_data e ["diagram", "parent", "children"])
    e.diagram e.parent

/-- Transcription of the `copy` single-dispatch iterator: a plain element
yields its own entry; a presentation yields its entry followed by the copy
of its `subject`, if any; a diagram yields its entry (without
`ownedPresentation`) followed by the copies of its presentations whose
subject is not the diagram itself.  Fuel bounds the subject/presentation
recursion (unbounded in the source; cyclic subject chains do not occur in
models). -/
def copySrc (src : SrcStore) : Nat → SrcElem → List (PId × CopyRecord)
  | 0, _ => []
  | Nat.succ fuel, e =>
    match e.kind with
    | SrcKind.base => [(e.id, copy_element e [])]
    | SrcKind.presentation =>
        (e.id, copy_presentation e) ::
        (match e.subject with
         | some sId =>
             match getSrc src sId with
             | some se => copySrc src fuel se
             | Option.none => []
         | Option.none => [])
    | SrcKind.diagram =>
        (e.id, copy_element e ["ownedPresentation"]) ::
        e.ownedPresentation.foldl
          (fun acc pId =>
            match getSrc src pId with
            | some p =>
                if p.subject == some e.id then acc else acc ++ copySrc src fuel p
            | Option.none => acc)
          []

/-- The initial bundle dict: `{ref: data for item in items for ref, data in
copy(item)}` (later duplicates overwrite, insertion order preserved). -/
def initElements (src : SrcStore) (fuelc : Nat) (items : List SrcElem) :
    List (PId × CopyRecord) :=
  (items.flatMap (copySrc src fuelc)).foldl (fun d p => dinsert p.1 p.2 d) []

/-- Transcription of `copy_owned(e)`: walk `owns(e)`; every owned element
whose `owner` points back at `e` is copied, each yielded entry not already
in the bundle is inserted and triggers a recursive expansion of the owned
element; entries already present are skipped and cause no recursion.  Fuel
bounds the recursion (the source recursion terminates because every
recursive call follows an insertion of a new key). -/
def copy_owned (src : SrcStore) (fuelc : Nat) :
    Nat → SrcElem → List (PId × CopyRecord) → List (PId × CopyRecord)
  | 0, _, d => d
  | Nat.succ fuel, e, d =>
      e.owns.foldl
        (fun d oId =>
          match getSrc src oId with
          | some o =>
              if o.owner == some e.id then
                (copySrc src fuelc o).foldl
                  (fun d p =>
                    if (alook p.1 d).isSome then d
                    else copy_owned src fuelc fuel o (dinsert p.1 p.2 d))
                  d
              else d
          | Option.none => d)
        d

/-- `{item.diagram.id for item in items if isinstance(item, Presentation)}`. -/
def diagramRefs (items : List SrcElem) : List PId :=
  (items.filterMap (fun it =>
    if it.kind == SrcKind.presentation then some it.diagram else Option.none)).dedup

/-- Transcription of `copy_full(items, lookup)`: copy the supplied items;
when a resolver over the source graph is supplied, expand the ownership
closure from every initially copied identifier. -/
def copy_full (src : SrcStore) (items : List SrcElem)
    (lookup : Option (PId → Option SrcElem)) : CopyData :=
  let fuelc := src.length + 1
  let elements := initElements src fuelc items
  match lookup with
  | Option.none => ⟨elements, diagramRefs items⟩
  | some lk =>
      ⟨(elements.map Prod.fst).foldl
        (fun d ref =>
          match lk ref with
          | some e => copy_owned src fuelc (src.length + 1) e d
          | Option.none => d)
        elements,
       diagramRefs items⟩

theorem serializeList_map (l : List PValue) : serializeList l = l.map serialize := by
  induction l with
  | nil => rfl
  | cons v rest ih => simp [serializeList, ih]

/-- C8, counterexample: booleans are converted to integers before
stringification, so `True` serializes exactly like the integer `1` (and
`False` like `0`) — the serialized forms are ambiguous, not distinct. -/
theorem serialize_bool_int_counterexample :
    serialize (PValue.bool true) = serialize (PValue.int 1) ∧
    serialize (PValue.bool false) = serialize (PValue.int 0) ∧
    serialize (PValue.bool true) = Ser.v "1" ∧
    serialize (PValue.bool false) = Ser.v "0" :=
  ⟨rfl, rfl, rfl, rfl⟩

/-- C8, amended: `serialize` maps a single node reference to `("r", id)`, a
collection to `("c", [serialize(v) ...])`, and everything else to a
`("v", stringForm)` pair, with booleans converted to integers before
stringification — so a boolean's serialized form coincides with the
corresponding integer's (`True ↦ "1"`, `False ↦ "0"`). -/
theorem serialize_rules :
    (∀ i, serialize (PValue.base i) = Ser.r i) ∧
    (∀ l, serialize (PValue.coll l) = Ser.c (l.map serialize)) ∧
    (∀ b, serialize (PValue.bool b) = Ser.v (if b then "1" else "0")) ∧
    (∀ n : Int, serialize (PValue.int n) = Ser.v (toString n)) ∧
    (∀ s, serialize (PValue.str s) = Ser.v s) ∧
    serialize PValue.none = Ser.v "None" := by
  refine ⟨fun i => rfl, fun l => ?_, fun b => ?_, fun n => rfl, fun s => rfl, rfl⟩
  · rw [serialize, serializeList_map]
  · cases b <;> rfl

/-- An arbitrary paste state for the deserialize counterexample. -/
def c9State : PasteState := ⟨⟨[], 0⟩, []⟩

/-- C9, counterexample: a payload with an unrecognized tag matches none of
`deserialize`'s branches and silently yields zero results — no error is
raised (the function has no raise path), contrary to the claimed fatal
contract violation. -/
theorem deserialize_unknown_tag_counterexample :
    deserializeM (fun _ s => (Option.none, s)) (Ser.other "bogus" "payload")
      c9State = ([], c9State) :=
  rfl

/-- C9, amended: an unrecognized tag is silently ignored (zero results, state
untouched), exactly like a dangling single reference; a resolving reference
yields the one element, a `"v"` payload its raw value, and a collection
flattens its items' deserialization. -/
theorem deserialize_tags (lk : PId → PasteState → Option PId × PasteState) :
    (∀ t p s, deserializeM lk (Ser.other t p) s = ([], s)) ∧
    (∀ i s s', lk i s = (Option.none, s') →
      deserializeM lk (Ser.r i) s = ([], s')) ∧
    (∀ i e s s', lk i s = (some e, s') →
      deserializeM lk (Ser.r i) s = ([LVal.ref e], s')) ∧
    (∀ v s, deserializeM lk (Ser.v v) s = ([LVal.str v], s)) ∧
    (∀ items s, deserializeM lk (Ser.c items) s = deserializeListM lk items s) := by
  refine ⟨fun t p s => rfl, ?_, ?_, fun v s => rfl, fun items s => rfl⟩
  · intro i s s' h
    simp [deserializeM, h]
  · intro i e s s' h
    simp [deserializeM, h]

/-- C9 witness: the amended theorem applied to a concrete dangling lookup. -/
theorem deserialize_tags_witness :
    deserializeM (fun _ s => (Option.none, s)) (Ser.r (PId.orig "gone"))
      c9State = ([], c9State) :=
  (deserialize_tags (fun _ s => (Option.none, s))).2.1 (PId.orig "gone")
    c9State c9State rfl

/-- The C3 counterexample bundle: a single presentation copy-record, pasted
onto target diagram `t`. -/
def c3PresCls : ClsDesc := ⟨"P", true⟩

def c3Bundle : CopyData :=
  ⟨[(PId.orig "p", CopyRecord.pres c3PresCls [] (PId.orig "d") Option.none)],
   [PId.orig "d"]⟩

def c3Diag : Elem := ⟨⟨"Diagram", false⟩, [], Option.none, Option.none, 0⟩

/-- C3, counterexample: a pasted presentation item receives `postload()` only
once — `_paste_presentation` has no `postload` call of its own, so the
closing pass is its first, not its second. -/
theorem paste_presentation_postload_counterexample :
    (pasteAll c3Bundle (PId.orig "t") ⟨[(PId.orig "t", c3Diag)], 0⟩ false).2.model.lookupE
        (PId.fresh 0) =
      some ⟨c3PresCls, [], Option.none, some (PId.orig "t"), 1⟩ ∧
    (1 : Nat) ≠ 2 :=
  ⟨rfl, by decide⟩

/-- C6 counterexample setup: identifier `d` is a bundle element *and* one of
the copied diagram identifiers; a live non-presentation element still sits
under `d` in the target store, and the bundle element `x` references `d`. -/
def c6LiveD : Elem := ⟨⟨"Diagram", false⟩, [], Option.none, Option.none, 0⟩

def c6TDiag : Elem := ⟨⟨"Diagram", false⟩, [], Option.none, Option.none, 0⟩

def c6Bundle : CopyData :=
  ⟨[(PId.orig "x", CopyRecord.base ⟨"T", false⟩ (PId.orig "x")
      [("ref", Ser.r (PId.orig "d"))]),
    (PId.orig "d", CopyRecord.base ⟨"Diagram", false⟩ (PId.orig "d") [])],
   [PId.orig "d"]⟩

def c6Model : Model := ⟨[(PId.orig "d", c6LiveD), (PId.orig "t", c6TDiag)], 0⟩

/-- C6, counterexample: in link mode, the bundle identifier `d` still
resolves to a live non-presentation node of the target store, yet paste does
*not* reuse it — diagram substitution (step 1 of `element_lookup`) wins, so
the reference of the pasted element `x` resolves to the target diagram `t`
instead of the identical object `d`. -/
theorem link_reuse_counterexample :
    (alook (PId.orig "d") c6Bundle.elements).isSome = true ∧
    c6Model.lookupE (PId.orig "d") = some c6LiveD ∧
    isLiveNonPresentation (some c6LiveD) = true ∧
    (paste_link c6Bundle (PId.orig "t") c6Model).2.model.lookupE (PId.fresh 0) =
      some ⟨⟨"T", false⟩, [("ref", LVal.ref (PId.orig "t"))], Option.none,
        Option.none, 2⟩ ∧
    PId.orig "t" ≠ PId.orig "d" :=
  ⟨rfl, rfl, rfl, rfl, by decide⟩

/-- Source node `A` of the C2 cycle: a plain element referencing `B`. -/
def cycleA (a b : String) : SrcElem :=
  ⟨PId.orig a, ⟨"T", false⟩, [("other", PValue.base (PId.orig b))], SrcKind.base,
   Option.none, Option.none, PId.orig a, [], Option.none, []⟩

/-- Source node `B` of the C2 cycle: a plain element referencing `A`. -/
def cycleB (a b : String) : SrcElem :=
  ⟨PId.orig b, ⟨"T", false⟩, [("other", PValue.base (PId.orig a))], SrcKind.base,
   Option.none, Option.none, PId.orig b, [], Option.none, []⟩

/-- C2: for every pair of distinct identifiers `a`, `b`, copying the two
mutually referencing nodes and pasting the bundle into an empty target runs
to completion (every memoization and load below resolves within the fuel
bound — because each newly created element is memoized under its original
identifier before its properties load, the recursive resolution of `a` from
inside `b` hits the memo instead of recursing) and produces exactly two new
nodes, whose mutual references point at each other's fresh identifiers and —
`fresh` ids being disjoint from original ids by construction — never at the
originals. -/
theorem paste_cycle_new_ids (a b : String) (hab : a ≠ b) (tD : PId) :
    (paste_full (copy_full [cycleA a b, cycleB a b] [cycleA a b, cycleB a b]
        Option.none) tD ⟨[], 0⟩).2 =
      ⟨⟨[(PId.fresh 1,
          ⟨⟨"T", false⟩, [("other", LVal.ref (PId.fresh 0))], Option.none,
           Option.none, 2⟩),
         (PId.fresh 0,
          ⟨⟨"T", false⟩, [("other", LVal.ref (PId.fresh 1))], Option.none,
           Option.none, 2⟩)],
        2⟩,
       [(PId.orig a, PId.fresh 0), (PId.orig b, PId.fresh 1)]⟩ ∧
    (∀ s n, PId.fresh n ≠ PId.orig s) := by
  have hba : b ≠ a := fun h => hab h.symm
  constructor
  · simp [paste_full, pasteAll, copy_full, initElements, copySrc, cycleA, cycleB,
      copy_element, copy_base_data, serialize, dinsert, diagramRefs, pasteInit,
      pasteLoop, pasteFuel, element_lookup, paste_element, paste_presentation,
      alook, Model.lookupE, Model.createE,
      isLiveNonPresentation, loadProps, deserializeM, Model.loadProp,
      Model.modifyE, modAssoc, Model.postloadE, finalPostload, hab, hba, getSrc]
  · intro s n h
    cases h

/-- C2 witness: the cycle theorem at concrete identifiers. -/
theorem paste_cycle_new_ids_witness :
    (paste_full (copy_full [cycleA "a" "b", cycleB "a" "b"]
        [cycleA "a" "b", cycleB "a" "b"] Option.none) (PId.orig "t") ⟨[], 0⟩).2 =
      ⟨⟨[(PId.fresh 1,
          ⟨⟨"T", false⟩, [("other", LVal.ref (PId.fresh 0))], Option.none,
           Option.none, 2⟩),
         (PId.fresh 0,
          ⟨⟨"T", false⟩, [("other", LVal.ref (PId.fresh 1))], Option.none,
           Option.none, 2⟩)],
        2⟩,
       [(PId.orig "a", PId.fresh 0), (PId.orig "b", PId.fresh 1)]⟩ :=
  (paste_cycle_new_ids "a" "b" (by decide) (PId.orig "t")).1

/-! ### State invariants of `element_lookup` (for the link-mode reuse and
materialize-once theorems) -/

theorem alook_dinsert_ne (k j : PId) (v : β) (d : List (PId × β)) (h : k ≠ j) :
    alook j (dinsert k v d) = alook j d := by
  induction d with
  | nil => simp [dinsert, alook, h]
  | cons p rest ih =>
      rcases p with ⟨k', v'⟩
      by_cases hk : k' = k
      · subst hk
        simp [dinsert, alook, h]
      · simp only [dinsert, alook]
        rw [if_neg hk]
        by_cases hj : k' = j
        · simp [alook, hj]
        · simp [alook, hj, ih]

theorem alook_dinsert_self (k : PId) (v : β) (d : List (PId × β)) :
    alook k (dinsert k v d) = some v := by
  induction d with
  | nil => simp [dinsert, alook]
  | cons p rest ih =>
      rcases p with ⟨k', v'⟩
      by_cases hk : k' = k
      · simp [dinsert, hk, alook]
      · simp [dinsert, hk, alook, ih]

theorem alook_modAssoc (i j : PId) (f : Elem → Elem) (l : List (PId × Elem)) :
    alook j (modAssoc i f l) =
      match alook j l with
      | some v => some (if i = j then f v else v)
      | Option.none => Option.none := by
  induction l with
  | nil => rfl
  | cons p rest ih =>
      rcases p with ⟨k, v⟩
      simp only [modAssoc, alook]
      by_cases hj : k = j
      · subst hj
        by_cases hi : k = i
        · subst hi
          simp
        · simp [hi, Ne.symm hi]
      · rw [if_neg hj, if_neg hj, ih]

theorem lookupE_modifyE_ne (m : Model) (i j : PId) (f : Elem → Elem)
    (h : i ≠ j) : (m.modifyE i f).lookupE j = m.lookupE j := by
  simp only [Model.modifyE, Model.lookupE, alook_modAssoc]
  rcases alook j m.elems with _ | v
  · rfl
  · simp [h]

theorem lookupE_createE_ne (m : Model) (c : ClsDesc) (diag : Option PId) (j : PId)
    (h : PId.fresh m.fresh ≠ j) : (m.createE c diag).2.lookupE j = m.lookupE j := by
  simp [Model.createE, Model.lookupE, alook, h]

/-- The link-mode reuse invariant for an original identifier `rs` bound to
element `e0`: the paste pass has not rebound it in `new_elements`, and the
target model still holds `e0` under it. -/
def reuseInv (rs : String) (e0 : Elem) (s : PasteState) : Prop :=
  alook (PId.orig rs) s.newElements = Option.none ∧
  s.model.lookupE (PId.orig rs) = some e0

theorem reuseInv_load (rs : String) (e0 : Elem) (nid : PId) (k : Nat)
    (hnid : nid = PId.fresh k) (name : String) (v : LVal) (s : PasteState)
    (hs : reuseInv rs e0 s) :
    reuseInv rs e0 ⟨s.model.loadProp nid name v, s.newElements⟩ := by
  refine ⟨hs.1, ?_⟩
  rw [Model.loadProp, lookupE_modifyE_ne _ _ _ _ (by rw [hnid]; intro h; cases h)]
  exact hs.2

theorem foldl_lval_inv {P : PasteState → Prop} (f : PasteState → LVal → PasteState)
    (hf : ∀ s v, P s → P (f s v)) :
    ∀ (l : List LVal) (s : PasteState), P s → P (l.foldl f s)
  | [], _, hs => hs
  | v :: rest, s, hs => foldl_lval_inv f hf rest (f s v) (hf s v hs)

mutual
theorem deserializeM_inv {P : PasteState → Prop}
    (lk : PId → PasteState → Option PId × PasteState)
    (hlk : ∀ r s, P s → P (lk r s).2) :
    ∀ (ser : Ser) (s : PasteState), P s → P (deserializeM lk ser s).2
  | Ser.r i, s, hs => by
      have h := hlk i s hs
      rcases hli : lk i s with ⟨o, s'⟩
      rw [hli] at h
      cases o <;> simp [deserializeM, hli] <;> exact h
  | Ser.c items, s, hs => by
      simp only [deserializeM]
      exact deserializeListM_inv lk hlk items s hs
  | Ser.v v, s, hs => hs
  | Ser.other t p, s, hs => hs
theorem deserializeListM_inv {P : PasteState → Prop}
    (lk : PId → PasteState → Option PId × PasteState)
    (hlk : ∀ r s, P s → P (lk r s).2) :
    ∀ (items : List Ser) (s : PasteState), P s → P (deserializeListM lk items s).2
  | [], _, hs => hs
  | it :: rest, s, hs => by
      have h1 := deserializeM_inv lk hlk it s hs
      rcases hd : deserializeM lk it s with ⟨vs, s'⟩
      rw [hd] at h1
      have h2 := deserializeListM_inv lk hlk rest s' h1
      rcases hd2 : deserializeListM lk rest s' with ⟨vs2, s''⟩
      rw [hd2] at h2
      simp [deserializeListM, hd, hd2]
      exact h2
end

theorem loadProps_inv {P : PasteState → Prop}
    (lk : PId → PasteState → Option PId × PasteState)
    (hlk : ∀ r s, P s → P (lk r s).2) (nid : PId)
    (hld : ∀ s name v, P s →
      P (PasteState.mk (s.model.loadProp nid name v) s.newElements)) :
    ∀ (data : List (String × Ser)) (s : PasteState), P s → P (loadProps lk nid data s)
  | [], _, hs => hs
  | (name, ser) :: rest, s, hs => by
      have h1 := deserializeM_inv lk hlk ser s hs
      rcases hd : deserializeM lk ser s with ⟨vals, s'⟩
      rw [hd] at h1
      have h2 := foldl_lval_inv
        (fun st v => PasteState.mk (st.model.loadProp nid name v) st.newElements)
        (fun st v hst => hld st name v hst) vals s' h1
      simp only [loadProps, hd]
      exact loadProps_inv lk hlk nid hld rest _ h2

/-- `paste_element` preserves any state predicate closed under the lookup
closure, the create/memoize step, loads into the new element, and its
postload. -/
theorem paste_element_inv {P : PasteState → Prop}
    (lk : PId → PasteState → Option PId × PasteState)
    (hlk : ∀ r s, P s → P (lk r s).2)
    (ref : PId) (cls : ClsDesc) (data : List (String × Ser)) (s : PasteState)
    (hP : P s)
    (hcreate : ∀ s' : PasteState, P s' →
      P ⟨⟨(PId.fresh s'.model.fresh, ⟨cls, [], Option.none, Option.none, 0⟩) ::
            s'.model.elems, s'.model.fresh + 1⟩,
          dinsert ref (PId.fresh s'.model.fresh) s'.newElements⟩)
    (hld : ∀ (s' : PasteState) (name : String) (v : LVal), P s' →
      P ⟨s'.model.loadProp (PId.fresh s.model.fresh) name v, s'.newElements⟩)
    (hpost : ∀ s' : PasteState, P s' →
      P ⟨s'.model.postloadE (PId.fresh s.model.fresh), s'.newElements⟩) :
    P (paste_element lk ref cls data s).2 := by
  simp only [paste_element, Model.createE]
  exact hpost _ (loadProps_inv lk hlk _ hld data _ (hcreate s hP))

/-- `paste_presentation` preserves any state predicate closed under the
lookup closure, the create/memoize step, parent assignment and loads into
the new element. -/
theorem paste_presentation_inv {P : PasteState → Prop}
    (lk : PId → PasteState → Option PId × PasteState)
    (hlk : ∀ r s, P s → P (lk r s).2)
    (ref : PId) (cls : ClsDesc) (data : List (String × Ser)) (diagRef : PId)
    (parent : Option PId) (s : PasteState) (hP : P s)
    (hcreate : ∀ (s' : PasteState) (dId : PId), P s' →
      P ⟨⟨(PId.fresh s'.model.fresh, ⟨cls, [], Option.none, some dId, 0⟩) ::
            s'.model.elems, s'.model.fresh + 1⟩,
          dinsert ref (PId.fresh s'.model.fresh) s'.newElements⟩)
    (hld : ∀ (s' : PasteState) (k : Nat) (name : String) (v : LVal), P s' →
      P ⟨s'.model.loadProp (PId.fresh k) name v, s'.newElements⟩)
    (hpar : ∀ (s' : PasteState) (k : Nat) (p : PId), P s' →
      P ⟨s'.model.setParentE (PId.fresh k) p, s'.newElements⟩) :
    P (paste_presentation lk ref cls data diagRef parent s).2 := by
  simp only [paste_presentation]
  have hd := hlk diagRef s hP
  rcases hdl : lk diagRef s with ⟨dres, s1⟩
  rw [hdl] at hd
  cases dres with
  | none => exact hd
  | some dId =>
      simp only [Model.createE]
      have hs2 := hcreate s1 dId hd
      have hstep : ∀ st : PasteState, P st → P
          (match parent with
           | some pRef =>
               match lk pRef st with
               | (some p, s') =>
                   PasteState.mk (s'.model.setParentE (PId.fresh s1.model.fresh) p)
                     s'.newElements
               | (Option.none, s') => s'
           | Option.none => st) := by
        intro st hst
        cases parent with
        | none => exact hst
        | some pRef =>
            have hp := hlk pRef st hst
            rcases hpl : lk pRef st with ⟨pres', s'⟩
            rw [hpl] at hp
            simp only [hpl]
            cases pres' with
            | none => exact hp
            | some p => exact hpar s' s1.model.fresh p hp
      exact loadProps_inv lk hlk _ (fun s' name v hs' => hld s' s1.model.fresh name v hs')
        data _ (hstep _ hs2)

theorem element_lookup_reuseInv (rs : String) (e0 : Elem)
    (hpres : e0.cls.pres = false) (cd : CopyData) (targetD : PId) :
    ∀ (fuel : Nat) (r : PId) (s : PasteState),
      reuseInv rs e0 s → reuseInv rs e0 (element_lookup cd false targetD fuel r s).2 := by
  intro fuel
  induction fuel with
  | zero => exact fun r s hs => hs
  | succ fuel ih =>
      intro r s hs
      simp only [element_lookup]
      cases hmemo : alook r s.newElements with
      | some e => exact hs
      | none =>
        simp only [Bool.not_false, Bool.true_and]
        by_cases hlive : isLiveNonPresentation (s.model.lookupE r) = true
        · rw [if_pos hlive]
          exact hs
        · rw [if_neg hlive]
          have hrne : r ≠ PId.orig rs := by
            intro hr
            subst hr
            rw [hs.2] at hlive
            exact hlive (by simp [isLiveNonPresentation, hpres])
          cases hrec : alook r cd.elements with
          | none =>
              simp only [Bool.false_and, Bool.false_eq_true, if_false]
              cases hdl : diagramIndexLookup targetD s.model r <;> exact hs
          | some rec =>
              cases rec with
              | base cls _ data =>
                  apply paste_element_inv _ (fun r' s' hs' => ih r' s' hs') _ _ _ _ hs
                  · intro s' hs'
                    refine ⟨?_, ?_⟩
                    · rw [alook_dinsert_ne _ _ _ _ hrne]
                      exact hs'.1
                    · simp only [Model.lookupE, alook]
                      rw [if_neg (by intro h; cases h)]
                      exact hs'.2
                  · intro s' name v hs'
                    exact reuseInv_load rs e0 _ s.model.fresh rfl name v s' hs'
                  · intro s' hs'
                    refine ⟨hs'.1, ?_⟩
                    rw [Model.postloadE, lookupE_modifyE_ne _ _ _ _ (by intro h; cases h)]
                    exact hs'.2
              | pres cls data diagRef parent =>
                  apply paste_presentation_inv _ (fun r' s' hs' => ih r' s' hs')
                    _ _ _ _ _ _ hs
                  · intro s' dId hs'
                    refine ⟨?_, ?_⟩
                    · rw [alook_dinsert_ne _ _ _ _ hrne]
                      exact hs'.1
                    · simp only [Model.lookupE, alook]
                      rw [if_neg (by intro h; cases h)]
                      exact hs'.2
                  · intro s' k name v hs'
                    exact reuseInv_load rs e0 _ k rfl name v s' hs'
                  · intro s' k p hs'
                    refine ⟨hs'.1, ?_⟩
                    rw [Model.setParentE, lookupE_modifyE_ne _ _ _ _ (by intro h; cases h)]
                    exact hs'.2

theorem alook_foldl_dinsert (k : PId) (v : β) (refs : List PId)
    (d : List (PId × β)) (h : k ∉ refs) (hd : alook k d = Option.none) :
    alook k (refs.foldl (fun d r => dinsert r v d) d) = Option.none := by
  induction refs generalizing d with
  | nil => exact hd
  | cons r rest ih =>
      simp only [List.foldl_cons]
      have hkr : r ≠ k := fun hrk => h (by rw [← hrk]; exact List.mem_cons_self r rest)
      apply ih _ (fun hm => h (List.mem_cons.mpr (Or.inr hm)))
      rw [alook_dinsert_ne r k v d hkr]
      exact hd

theorem pasteLoop_reuseInv (rs : String) (e0 : Elem) (hpres : e0.cls.pres = false)
    (cd : CopyData) (targetD : PId) (fuel : Nat) :
    ∀ (keys : List PId) (s : PasteState),
      reuseInv rs e0 s → reuseInv rs e0 (pasteLoop cd false targetD fuel keys s)
  | [], _, hs => hs
  | k :: ks, s, hs => by
      simp only [pasteLoop]
      by_cases hk : (alook k s.newElements).isSome
      · rw [if_pos hk]
        exact pasteLoop_reuseInv rs e0 hpres cd targetD fuel ks s hs
      · rw [if_neg hk]
        exact pasteLoop_reuseInv rs e0 hpres cd targetD fuel ks _
          (element_lookup_reuseInv rs e0 hpres cd targetD fuel k s hs)

/-- An element of the model is intact (same class, loads and parent) up to
`postload` counting. -/
def intactAt (j : PId) (e0 : Elem) (m : Model) : Prop :=
  ∃ e', m.lookupE j = some e' ∧ e'.cls = e0.cls ∧ e'.props = e0.props ∧
    e'.parent = e0.parent

theorem intactAt_postloadE (j i : PId) (e0 : Elem) (m : Model)
    (h : intactAt j e0 m) : intactAt j e0 (m.postloadE i) := by
  rcases h with ⟨e', he', h1, h2, h3⟩
  have he'' : alook j m.elems = some e' := he'
  by_cases hij : i = j
  · refine ⟨⟨e'.cls, e'.props, e'.parent, e'.diagId, e'.postloads + 1⟩, ?_, h1, h2, h3⟩
    simp only [Model.postloadE, Model.modifyE, Model.lookupE, alook_modAssoc, he'']
    rw [if_pos hij]
  · refine ⟨e', ?_, h1, h2, h3⟩
    simp only [Model.postloadE, Model.modifyE, Model.lookupE, alook_modAssoc, he'']
    rw [if_neg hij]

theorem intactAt_foldl_postloadE (j : PId) (e0 : Elem)
    (l : List (PId × PId)) (m : Model) (h : intactAt j e0 m) :
    intactAt j e0 (l.foldl (fun m p => m.postloadE p.2) m) := by
  induction l generalizing m with
  | nil => exact h
  | cons p rest ih =>
      simp only [List.foldl_cons]
      exact ih _ (intactAt_postloadE j p.2 e0 m h)

/-- C6, amended: in link mode, an identifier of the bundle that still
resolves to a live, non-presentation element of the target store — provided
it is not one of the copied diagram identifiers (diagram substitution, step
1, takes precedence) — is reused as-is: every resolution during the paste
returns the identical element (statement one, at any invariant-satisfying
state, hence in particular at every state the paste pass reaches), it is
never rebound in `new_elements` (no duplicate is materialized for it), and
its class, loads and parent survive the paste untouched. -/
theorem link_mode_reuse (rs : String) (e0 : Elem) (cd : CopyData)
    (targetD : PId) (m : Model)
    (hlive : m.lookupE (PId.orig rs) = some e0)
    (hpres : e0.cls.pres = false)
    (hbundle : (alook (PId.orig rs) cd.elements).isSome)
    (hnotdiag : PId.orig rs ∉ cd.diagram_refs) :
    (∀ (fuel : Nat) (s : PasteState), reuseInv rs e0 s →
      element_lookup cd false targetD (fuel + 1) (PId.orig rs) s =
        (some (PId.orig rs), s)) ∧
    alook (PId.orig rs) (paste_link cd targetD m).2.newElements = Option.none ∧
    (∃ e', (paste_link cd targetD m).2.model.lookupE (PId.orig rs) = some e' ∧
      e'.cls = e0.cls ∧ e'.props = e0.props ∧ e'.parent = e0.parent) := by
  have hInit : reuseInv rs e0 (pasteInit cd targetD m) := by
    refine ⟨?_, hlive⟩
    exact alook_foldl_dinsert _ _ _ _ hnotdiag rfl
  have hLoop := pasteLoop_reuseInv rs e0 hpres cd targetD (pasteFuel cd)
    (cd.elements.map Prod.fst) _ hInit
  refine ⟨?_, ?_, ?_⟩
  · intro fuel s hs
    simp only [element_lookup, hs.1]
    rw [hs.2]
    simp [isLiveNonPresentation, hpres]
  · simp only [paste_link, pasteAll, finalPostload]
    exact hLoop.1
  · simp only [paste_link, pasteAll, finalPostload]
    exact intactAt_foldl_postloadE _ e0 _ _ ⟨e0, hLoop.2, rfl, rfl, rfl⟩

/-- Concrete data for the C6 witness: a plain live element `n` also present
in the bundle, link-pasted onto diagram `t`. -/
def c6wElem : Elem := ⟨⟨"T", false⟩, [("x", LVal.str "1")], Option.none, Option.none, 0⟩

def c6wBundle : CopyData :=
  ⟨[(PId.orig "n", CopyRecord.base ⟨"T", false⟩ (PId.orig "n") [])], []⟩

def c6wModel : Model := ⟨[(PId.orig "n", c6wElem)], 0⟩

/-- C6 witness: the amended reuse theorem at a concrete link-mode paste. -/
theorem link_mode_reuse_witness :
    alook (PId.orig "n") (paste_link c6wBundle (PId.orig "t") c6wModel).2.newElements =
      Option.none ∧
    (∃ e', (paste_link c6wBundle (PId.orig "t") c6wModel).2.model.lookupE
        (PId.orig "n") = some e' ∧ e'.cls = c6wElem.cls ∧ e'.props = c6wElem.props ∧
      e'.parent = c6wElem.parent) :=
  ⟨(link_mode_reuse "n" c6wElem c6wBundle (PId.orig "t") c6wModel rfl rfl
      (by simp [c6wBundle, alook]) (by simp [c6wBundle])).2.1,
   (link_mode_reuse "n" c6wElem c6wBundle (PId.orig "t") c6wModel rfl rfl
      (by simp [c6wBundle, alook]) (by simp [c6wBundle])).2.2⟩

/-! ### The materialize-once / postload-twice analysis (plain-element bundles) -/

theorem alook_mem (k : PId) (v : β) (l : List (PId × β))
    (h : alook k l = some v) : (k, v) ∈ l := by
  induction l with
  | nil => cases h
  | cons p rest ih =>
      rcases p with ⟨k', v'⟩
      simp only [alook] at h
      by_cases hk : k' = k
      · rw [if_pos hk] at h
        cases h
        subst hk
        simp
      · rw [if_neg hk] at h
        simp [ih h]

theorem mem_dinsert (k : PId) (v : β) (d : List (PId × β)) (q : PId × β)
    (h : q ∈ dinsert k v d) : q = (k, v) ∨ q ∈ d := by
  induction d with
  | nil => simpa [dinsert] using h
  | cons p rest ih =>
      rcases p with ⟨k', v'⟩
      simp only [dinsert] at h
      by_cases hk : k' = k
      · rw [if_pos hk] at h
        rcases List.mem_cons.mp h with rfl | h2
        · exact Or.inl (by rw [hk])
        · exact Or.inr (by simp [h2])
      · rw [if_neg hk] at h
        rcases List.mem_cons.mp h with rfl | h2
        · exact Or.inr (by simp)
        · rcases ih h2 with h3 | h3
          · exact Or.inl h3
          · exact Or.inr (by simp [h3])

theorem mem_keys_dinsert (k : PId) (v : β) (d : List (PId × β)) (x : PId)
    (h : x ∈ (dinsert k v d).map Prod.fst) : x = k ∨ x ∈ d.map Prod.fst := by
  rcases List.mem_map.mp h with ⟨q, hq, hfst⟩
  rcases mem_dinsert k v d q hq with rfl | h2
  · exact Or.inl hfst.symm
  · exact Or.inr (hfst ▸ List.mem_map_of_mem Prod.fst h2)

theorem dinsert_keys_nodup (k : PId) (v : β) (d : List (PId × β))
    (h : (d.map Prod.fst).Nodup) : ((dinsert k v d).map Prod.fst).Nodup := by
  induction d with
  | nil => simp [dinsert]
  | cons p rest ih =>
      rcases p with ⟨k', v'⟩
      simp only [List.map_cons, List.nodup_cons] at h
      by_cases hk : k' = k
      · simp only [dinsert, if_pos hk, List.map_cons, List.nodup_cons]
        exact h
      · simp only [dinsert, if_neg hk, List.map_cons, List.nodup_cons]
        refine ⟨?_, ih h.2⟩
        intro hmem
        rcases mem_keys_dinsert k v rest k' hmem with rfl | h2
        · exact hk rfl
        · exact h.1 h2

/-- The global state invariant of a paste pass over a plain-element bundle:
fresh-id headroom in the model, every `new_elements` binding to a fresh id
lies below the counter and is unique, and the dict's keys are distinct. -/
def GI (s : PasteState) : Prop :=
  (∀ k, s.model.fresh ≤ k → s.model.lookupE (PId.fresh k) = Option.none) ∧
  (∀ k j, alook k s.newElements = some (PId.fresh j) → j < s.model.fresh) ∧
  (∀ k1 k2 j, alook k1 s.newElements = some (PId.fresh j) →
    alook k2 s.newElements = some (PId.fresh j) → k1 = k2) ∧
  (s.newElements.map Prod.fst).Nodup

/-- What one `element_lookup` call does to the state, for a plain-element
bundle: the fresh counter grows; every pre-existing element — except the one
open element `ex`, if any — is untouched; existing bindings persist; every
new binding is a bundle key bound to an element created during the call,
which has been postloaded exactly once; every element created during the
call is bound by some new binding; and bindings to elements created during
the call are unique. -/
def PostRel (cd : CopyData) (ex : Option Nat) (s s' : PasteState) : Prop :=
  s.model.fresh ≤ s'.model.fresh ∧
  (∀ i e, (∀ jj, ex = some jj → i ≠ PId.fresh jj) →
    s.model.lookupE i = some e → s'.model.lookupE i = some e) ∧
  (∀ k x, alook k s.newElements = some x → alook k s'.newElements = some x) ∧
  (∀ k x, alook k s.newElements = Option.none → alook k s'.newElements = some x →
    (alook k cd.elements).isSome ∧ ∃ j, x = PId.fresh j ∧ s.model.fresh ≤ j ∧
      j < s'.model.fresh ∧ ∃ e, s'.model.lookupE (PId.fresh j) = some e ∧
      e.postloads = 1) ∧
  (∀ j, s.model.fresh ≤ j → j < s'.model.fresh →
    ∃ k, alook k s.newElements = Option.none ∧
      alook k s'.newElements = some (PId.fresh j)) ∧
  (∀ k1 k2 j, s.model.fresh ≤ j → alook k1 s'.newElements = some (PId.fresh j) →
    alook k2 s'.newElements = some (PId.fresh j) → k1 = k2)

theorem PostRel_refl (cd : CopyData) (ex : Option Nat) (s : PasteState)
    (h : GI s) : PostRel cd ex s s := by
  refine ⟨le_refl _, fun i e _ he => he, fun k x hk => hk, ?_, ?_, ?_⟩
  · intro k x hk hk'
    rw [hk] at hk'
    cases hk'
  · intro j h1 h2
    exact absurd h1 (by omega)
  · intro k1 k2 j _ h1 h2
    exact h.2.2.1 k1 k2 j h1 h2

theorem PostRel_weaken_ex (cd : CopyData) (ex : Option Nat) (s s' : PasteState)
    (h : PostRel cd Option.none s s') : PostRel cd ex s s' := by
  refine ⟨h.1, ?_, h.2.2.1, h.2.2.2.1, h.2.2.2.2.1, h.2.2.2.2.2⟩
  intro i e _ he
  exact h.2.1 i e (fun jj hjj => by cases hjj) he

theorem PostRel_trans (cd : CopyData) (ex : Option Nat) (s s1 s2 : PasteState)
    (hex : ∀ jj, ex = some jj → jj < s.model.fresh)
    (h1 : PostRel cd ex s s1) (h2 : PostRel cd ex s1 s2) :
    PostRel cd ex s s2 := by
  obtain ⟨a1, a2, a3, a4, a5, a6⟩ := h1
  obtain ⟨b1, b2, b3, b4, b5, b6⟩ := h2
  refine ⟨le_trans a1 b1, ?_, ?_, ?_, ?_, ?_⟩
  · intro i e hi he
    exact b2 i e hi (a2 i e hi he)
  · intro k x hk
    exact b3 k x (a3 k x hk)
  · intro k x hk hk2
    rcases hm : alook k s1.newElements with _ | x1
    · rcases b4 k x hm hk2 with ⟨hb, j, rfl, hj1, hj2, e, he, hp⟩
      exact ⟨hb, j, rfl, le_trans a1 hj1, hj2, e, he, hp⟩
    · have hx1 : x1 = x := by
        have := b3 k x1 hm
        rw [this] at hk2
        cases hk2
        rfl
      subst hx1
      rcases a4 k x1 hk hm with ⟨hb, j, rfl, hj1, hj2, e, he, hp⟩
      refine ⟨hb, j, rfl, hj1, lt_of_lt_of_le hj2 b1, e, ?_, hp⟩
      exact b2 (PId.fresh j) e
        (fun jj hjj => by
          have := hex jj hjj
          intro hfe
          cases hfe
          omega)
        he
  · intro j hj1 hj2
    by_cases hjf : j < s1.model.fresh
    · rcases a5 j hj1 hjf with ⟨k, hk1, hk2⟩
      exact ⟨k, hk1, b3 k _ hk2⟩
    · rcases b5 j (by omega) hj2 with ⟨k, hk1, hk2⟩
      refine ⟨k, ?_, hk2⟩
      rcases hm : alook k s.newElements with _ | x
      · rfl
      · rw [a3 k x hm] at hk1
        cases hk1
  · intro k1 k2 j hj hk1 hk2
    by_cases hjf : s1.model.fresh ≤ j
    · exact b6 k1 k2 j hjf hk1 hk2
    · have hbind : ∀ k', alook k' s2.newElements = some (PId.fresh j) →
          alook k' s1.newElements = some (PId.fresh j) := by
        intro k' hk'
        rcases hm : alook k' s1.newElements with _ | y
        · rcases b4 k' _ hm hk' with ⟨_, j', hj', hge, _⟩
          cases hj'
          omega
        · have h3 := b3 k' y hm
          rw [h3] at hk'
          injection hk' with hy
          rw [hy]
      exact a6 k1 k2 j hj (hbind k1 hk1) (hbind k2 hk2)

theorem lookupE_modifyE_none (m : Model) (i j : PId) (f : Elem → Elem)
    (h : m.lookupE j = Option.none) : (m.modifyE i f).lookupE j = Option.none := by
  have hj : alook j m.elems = Option.none := h
  simp only [Model.modifyE, Model.lookupE, alook_modAssoc, hj]

theorem lookupE_modifyE_self (m : Model) (i : PId) (f : Elem → Elem) (e : Elem)
    (h : m.lookupE i = some e) : (m.modifyE i f).lookupE i = some (f e) := by
  have hi : alook i m.elems = some e := h
  simp only [Model.modifyE, Model.lookupE, alook_modAssoc, hi]
  simp

theorem modifyE_fresh (m : Model) (i : PId) (f : Elem → Elem) :
    (m.modifyE i f).fresh = m.fresh := rfl

theorem GI_modifyE (s : PasteState) (i : PId) (f : Elem → Elem) (h : GI s) :
    GI ⟨s.model.modifyE i f, s.newElements⟩ := by
  refine ⟨?_, h.2.1, h.2.2.1, h.2.2.2⟩
  intro k hk
  exact lookupE_modifyE_none _ _ _ _ (h.1 k hk)

theorem PostRel_modifyE (cd : CopyData) (nidj : Nat) (f : Elem → Elem)
    (s : PasteState) (h : GI s) :
    PostRel cd (some nidj) s ⟨s.model.modifyE (PId.fresh nidj) f, s.newElements⟩ := by
  refine ⟨le_refl _, ?_, fun k x hk => hk, ?_, ?_, ?_⟩
  · intro i e hi he
    rw [show (PasteState.mk (s.model.modifyE (PId.fresh nidj) f) s.newElements).model =
      s.model.modifyE (PId.fresh nidj) f from rfl]
    rw [lookupE_modifyE_ne _ _ _ f (Ne.symm (hi nidj rfl))]
    exact he
  · intro k x hk hk'
    rw [hk] at hk'
    cases hk'
  · intro j h1 h2
    exact absurd h1 (by simp only [modifyE_fresh] at h2; omega)
  · intro k1 k2 j _ h1 h2
    exact h.2.2.1 k1 k2 j h1 h2

theorem alook_dinsert (k k' : PId) (v : β) (d : List (PId × β)) :
    alook k' (dinsert k v d) = if k' = k then some v else alook k' d := by
  by_cases h : k' = k
  · subst h
    rw [if_pos rfl]
    exact alook_dinsert_self k' v d
  · rw [if_neg h]
    exact alook_dinsert_ne k k' v d (fun hh => h hh.symm)

theorem paste_element_spec (cd : CopyData)
    (lk : PId → PasteState → Option PId × PasteState)
    (hlk : ∀ (r' : PId) (st : PasteState), GI st →
      GI (lk r' st).2 ∧ PostRel cd Option.none st (lk r' st).2)
    (r : PId) (cls : ClsDesc) (data : List (String × Ser)) (s : PasteState)
    (hGI : GI s) (hmemo : alook r s.newElements = Option.none)
    (hrec : (alook r cd.elements).isSome) :
    GI (paste_element lk r cls data s).2 ∧
    PostRel cd Option.none s (paste_element lk r cls data s).2 := by
  obtain ⟨gh, gr, gi, gn⟩ := hGI
  simp only [paste_element, Model.createE]
  set f0 := s.model.fresh with hf0
  set nid := PId.fresh f0 with hnid
  set blank : Elem := ⟨cls, [], Option.none, Option.none, 0⟩ with hblank
  set s1 : PasteState :=
    ⟨⟨(nid, blank) :: s.model.elems, f0 + 1⟩, dinsert r nid s.newElements⟩ with hs1
  have hs1fresh : s1.model.fresh = f0 + 1 := rfl
  have hs1new : s1.newElements = dinsert r nid s.newElements := rfl
  have hs1elem : s1.model.lookupE nid = some blank := by
    simp [Model.lookupE, alook, hs1]
  have hs1old : ∀ i e, s.model.lookupE i = some e → s1.model.lookupE i = some e := by
    intro i e he
    have hine : nid ≠ i := by
      intro h
      subst h
      rw [gh f0 (le_refl _)] at he
      cases he
    simp only [hs1, Model.lookupE, alook]
    rw [if_neg hine]
    exact he
  have hs1bind : ∀ k x, alook k s.newElements = some x →
      alook k s1.newElements = some x := by
    intro k x hk
    rw [hs1new, alook_dinsert]
    rw [if_neg (by intro hkr; rw [hkr, hmemo] at hk; cases hk)]
    exact hk
  have hGI1 : GI s1 := by
    refine ⟨?_, ?_, ?_, ?_⟩
    · intro k hk
      rw [hs1fresh] at hk
      simp only [hs1, Model.lookupE, alook]
      rw [if_neg (by intro h; injection h with h; omega)]
      exact gh k (by omega)
    · intro k j hk
      rw [hs1new, alook_dinsert] at hk
      rw [hs1fresh]
      by_cases hkr : k = r
      · rw [if_pos hkr] at hk
        injection hk with hk
        rw [hnid] at hk
        injection hk with hk
        omega
      · rw [if_neg hkr] at hk
        have := gr k j hk
        omega
    · intro k1 k2 j hk1 hk2
      rw [hs1new, alook_dinsert] at hk1 hk2
      by_cases h1 : k1 = r <;> by_cases h2 : k2 = r
      · rw [h1, h2]
      · rw [if_pos h1] at hk1
        rw [if_neg h2] at hk2
        injection hk1 with hk1
        rw [hnid] at hk1
        injection hk1 with hk1
        have := gr k2 j hk2
        omega
      · rw [if_neg h1] at hk1
        rw [if_pos h2] at hk2
        injection hk2 with hk2
        rw [hnid] at hk2
        injection hk2 with hk2
        have := gr k1 j hk1
        omega
      · rw [if_neg h1] at hk1
        rw [if_neg h2] at hk2
        exact gi k1 k2 j hk1 hk2
    · rw [hs1new]
      exact dinsert_keys_nodup r nid s.newElements gn
  have hP2 : GI (loadProps lk nid data s1) ∧
      PostRel cd (some f0) s1 (loadProps lk nid data s1) ∧
      (∃ props', (loadProps lk nid data s1).model.lookupE nid =
        some ⟨cls, props', Option.none, Option.none, 0⟩) := by
    refine @loadProps_inv
      (fun st => GI st ∧ PostRel cd (some f0) s1 st ∧
        ∃ props', st.model.lookupE nid =
          some ⟨cls, props', Option.none, Option.none, 0⟩)
      lk ?_ nid ?_ data s1 ⟨hGI1, PostRel_refl cd _ s1 hGI1, ⟨[], hs1elem⟩⟩
    · intro r' st hst
      obtain ⟨hg, hpost, props', helem⟩ := hst
      obtain ⟨hg', hpost'⟩ := hlk r' st hg
      refine ⟨hg', ?_, props', ?_⟩
      · exact PostRel_trans cd _ s1 st _
          (by intro jj hjj; injection hjj with hjj; rw [hs1fresh]; omega)
          hpost (PostRel_weaken_ex cd _ st _ hpost')
      · exact hpost'.2.1 nid _ (fun jj hjj => by cases hjj) helem
    · intro st name v hst
      obtain ⟨hg, hpost, props', helem⟩ := hst
      refine ⟨GI_modifyE st nid _ hg, ?_, ⟨props' ++ [(name, v)], ?_⟩⟩
      · exact PostRel_trans cd _ s1 st _
          (by intro jj hjj; injection hjj with hjj; rw [hs1fresh]; omega)
          hpost (by rw [hnid]; exact PostRel_modifyE cd f0 _ st hg)
      · exact lookupE_modifyE_self st.model nid _ _ helem
  obtain ⟨hg2, hpost2, props', helem2⟩ := hP2
  set s2 := loadProps lk nid data s1 with hs2
  obtain ⟨a1, a2, a3, a4, a5, a6⟩ := hpost2
  have hs3elem : (s2.model.postloadE nid).lookupE nid =
      some ⟨cls, props', Option.none, Option.none, 1⟩ :=
    lookupE_modifyE_self s2.model nid _ _ helem2
  have hfle : f0 + 1 ≤ s2.model.fresh := hs1fresh ▸ a1
  constructor
  · exact GI_modifyE s2 nid _ hg2
  · refine ⟨?_, ?_, ?_, ?_, ?_, ?_⟩
    · simp only [Model.postloadE, modifyE_fresh]
      rw [hs1fresh] at a1
      omega
    · intro i e _ he
      have hine : i ≠ nid := by
        intro h
        subst h
        rw [gh f0 (le_refl _)] at he
        cases he
      rw [show (PasteState.mk (s2.model.postloadE nid) s2.newElements).model =
        s2.model.postloadE nid from rfl]
      rw [Model.postloadE, lookupE_modifyE_ne _ _ _ _ (Ne.symm hine)]
      exact a2 i e (fun jj hjj => by
          injection hjj with hjj
          subst hjj
          intro hif
          subst hif
          exact hine rfl) (hs1old i e he)
    · intro k x hk
      exact a3 k x (hs1bind k x hk)
    · intro k x hk hk'
      rcases hm1 : alook k s1.newElements with _ | x1
      · rcases a4 k x hm1 hk' with ⟨hb, j, rfl, hj1, hj2, e, he, hp⟩
        refine ⟨hb, j, rfl, by rw [hs1fresh] at hj1; omega,
          by simp only [Model.postloadE, modifyE_fresh]; omega, e, ?_, hp⟩
        rw [show (PasteState.mk (s2.model.postloadE nid) s2.newElements).model =
          s2.model.postloadE nid from rfl]
        have hne : nid ≠ PId.fresh j := by
          rw [hnid]
          intro hcon
          injection hcon with hcon
          rw [hs1fresh] at hj1
          omega
        rw [Model.postloadE, lookupE_modifyE_ne _ _ _ _ hne]
        exact he
      · have hkr : k = r := by
          by_contra hkr
          rw [hs1new, alook_dinsert, if_neg hkr, hk] at hm1
          cases hm1
        subst hkr
        have hx1 : x1 = nid := by
          rw [hs1new, alook_dinsert, if_pos rfl] at hm1
          injection hm1 with hm1
          exact hm1.symm
        subst hx1
        have hx : x = nid := by
          have := a3 k nid hm1
          rw [this] at hk'
          injection hk' with hk'
          exact hk'.symm
        subst hx
        refine ⟨hrec, f0, hnid, le_refl _,
          by simp only [Model.postloadE, modifyE_fresh]; rw [hs1fresh] at a1; omega,
          ⟨cls, props', Option.none, Option.none, 1⟩, hs3elem, rfl⟩
    · intro j hj1 hj2
      simp only [Model.postloadE, modifyE_fresh] at hj2
      by_cases hjf : j = f0
      · subst hjf
        refine ⟨r, hmemo, ?_⟩
        have := a3 r nid (by rw [hs1new, alook_dinsert, if_pos rfl])
        rw [hnid] at this
        exact this
      · rcases a5 j (by rw [hs1fresh]; omega) hj2 with ⟨k, hk1, hk2⟩
        refine ⟨k, ?_, hk2⟩
        rcases hm : alook k s.newElements with _ | x
        · rfl
        · rw [hs1bind k x hm] at hk1
          cases hk1
    · intro k1 k2 j hj hk1 hk2
      by_cases hjf : f0 + 1 ≤ j
      · exact a6 k1 k2 j (by rw [hs1fresh]; omega) hk1 hk2
      · have hjeq : j = f0 := by omega
        subst hjeq
        have hbind : ∀ k', alook k' s2.newElements = some (PId.fresh f0) → k' = r := by
          intro k' hk'
          rcases hm : alook k' s1.newElements with _ | y
          · rcases a4 k' _ hm hk' with ⟨_, j', hj', hge, _⟩
            injection hj' with hj'
            subst hj'
            rw [hs1fresh] at hge
            omega
          · have h3 := a3 k' y hm
            rw [h3] at hk'
            injection hk' with hy
            subst hy
            rw [hs1new, alook_dinsert] at hm
            by_contra hkr
            rw [if_neg hkr] at hm
            have := gr k' f0 hm
            omega
        rw [hbind k1 hk1, hbind k2 hk2]

theorem element_lookup_spec (cd : CopyData) (full : Bool) (targetD : PId)
    (hbase : ∀ p ∈ cd.elements, ∃ cls id data, p.2 = CopyRecord.base cls id data) :
    ∀ (fuel : Nat) (r : PId) (s : PasteState), GI s →
      GI (element_lookup cd full targetD fuel r s).2 ∧
      PostRel cd Option.none s (element_lookup cd full targetD fuel r s).2 := by
  intro fuel
  induction fuel with
  | zero => exact fun r s hs => ⟨hs, PostRel_refl cd _ s hs⟩
  | succ fuel ih =>
      intro r s hs
      simp only [element_lookup]
      cases hmemo : alook r s.newElements with
      | some e => exact ⟨hs, PostRel_refl cd _ s hs⟩
      | none =>
        by_cases hlive : (!full && isLiveNonPresentation (s.model.lookupE r)) = true
        · rw [if_pos hlive]
          exact ⟨hs, PostRel_refl cd _ s hs⟩
        · rw [if_neg hlive]
          cases hrec : alook r cd.elements with
          | none =>
              by_cases h2 : (full && isLiveNonPresentation (s.model.lookupE r)) = true
              · rw [if_pos h2]
                exact ⟨hs, PostRel_refl cd _ s hs⟩
              · rw [if_neg h2]
                cases diagramIndexLookup targetD s.model r <;>
                  exact ⟨hs, PostRel_refl cd _ s hs⟩
          | some rec =>
              cases rec with
              | base cls id data =>
                  exact paste_element_spec cd _ (fun r' st hst => ih r' st hst)
                    r cls data s hs hmemo (by rw [hrec]; rfl)
              | pres cls data diagRef parent =>
                  exfalso
                  rcases hbase _ (alook_mem r _ cd.elements hrec) with ⟨c, i, d, heq⟩
                  cases heq

theorem pasteLoop_spec (cd : CopyData) (full : Bool) (targetD : PId) (fuel : Nat)
    (hbase : ∀ p ∈ cd.elements, ∃ cls id data, p.2 = CopyRecord.base cls id data) :
    ∀ (keys : List PId) (s : PasteState), GI s →
      GI (pasteLoop cd full targetD fuel keys s) ∧
      PostRel cd Option.none s (pasteLoop cd full targetD fuel keys s)
  | [], s, hs => ⟨hs, PostRel_refl cd _ s hs⟩
  | k :: ks, s, hs => by
      simp only [pasteLoop]
      by_cases hk : (alook k s.newElements).isSome
      · rw [if_pos hk]
        exact pasteLoop_spec cd full targetD fuel hbase ks s hs
      · rw [if_neg hk]
        obtain ⟨hg1, hp1⟩ := element_lookup_spec cd full targetD hbase fuel k s hs
        obtain ⟨hg2, hp2⟩ := pasteLoop_spec cd full targetD fuel hbase ks _ hg1
        exact ⟨hg2, PostRel_trans cd _ s _ _ (fun jj hjj => by cases hjj) hp1 hp2⟩

theorem alook_none_of_not_mem_keys (k : PId) (l : List (PId × β))
    (h : k ∉ l.map Prod.fst) : alook k l = Option.none := by
  induction l with
  | nil => rfl
  | cons p rest ih =>
      rcases p with ⟨k', v'⟩
      simp only [List.map_cons] at h
      simp only [alook]
      rw [if_neg (fun hk => h (by rw [hk]; simp))]
      exact ih (fun hm => h (by simp [hm]))

theorem alook_of_mem_nodup (l : List (PId × PId))
    (hnd : (l.map Prod.fst).Nodup) (k : PId) (v : PId) (h : (k, v) ∈ l) :
    alook k l = some v := by
  induction l with
  | nil => cases h
  | cons p rest ih =>
      rcases p with ⟨k', v'⟩
      simp only [List.map_cons, List.nodup_cons] at hnd
      rcases List.mem_cons.mp h with heq | hmem
      · injection heq with h1 h2
        simp only [alook]
        rw [if_pos h1.symm, h2]
      · have hkne : k' ≠ k := by
          intro hk
          exact hnd.1 (hk ▸ List.mem_map_of_mem Prod.fst hmem)
        simp only [alook]
        rw [if_neg hkne]
        exact ih hnd.2 hmem

theorem countP_snd_eq_one (l : List (PId × PId))
    (hnd : (l.map Prod.fst).Nodup) (x k0 : PId)
    (hk0 : alook k0 l = some x) (huniq : ∀ k, alook k l = some x → k = k0) :
    l.countP (fun p => decide (p.2 = x)) = 1 := by
  induction l with
  | nil => cases hk0
  | cons p rest ih =>
      rcases p with ⟨k', v'⟩
      simp only [List.map_cons, List.nodup_cons] at hnd
      by_cases hvx : v' = x
      · have hrest0 : rest.countP (fun p => decide (p.2 = x)) = 0 := by
          apply List.countP_eq_zero.mpr
          intro q hq
          rcases q with ⟨k2, v2⟩
          simp only [decide_eq_true_eq]
          intro hv2
          subst hv2
          have hk2r : alook k2 rest = some v2 := alook_of_mem_nodup rest hnd.2 k2 v2 hq
          have hk2ne : k' ≠ k2 := by
            intro hk
            exact hnd.1 (hk ▸ List.mem_map_of_mem Prod.fst hq)
          have hfull : alook k2 ((k', v') :: rest) = some v2 := by
            simp only [alook]
            rw [if_neg hk2ne]
            exact hk2r
          have hk20 : k2 = k0 := huniq k2 hfull
          have hk'0 : k' = k0 := huniq k' (by simp [alook, hvx])
          exact hk2ne (hk'0.trans hk20.symm)
        simp [List.countP_cons, hrest0, hvx]
      · have hk0ne : k' ≠ k0 := by
          intro hk
          have : alook k0 ((k', v') :: rest) = some v' := by
            simp only [alook]
            rw [if_pos hk]
          rw [this] at hk0
          injection hk0 with hk0
          exact hvx hk0
        have hk0r : alook k0 rest = some x := by
          simp only [alook] at hk0
          rw [if_neg hk0ne] at hk0
          exact hk0
        have huniq' : ∀ k, alook k rest = some x → k = k0 := by
          intro k hk
          by_cases hkk : k' = k
          · exfalso
            have : alook k rest = Option.none := by
              apply alook_none_of_not_mem_keys
              rw [← hkk]
              exact hnd.1
            rw [this] at hk
            cases hk
          · exact huniq k (by simp only [alook]; rw [if_neg hkk]; exact hk)
        simp only [List.countP_cons]
        rw [show (decide ((k', v').2 = x)) = false from by simp [hvx]]
        simpa using ih hnd.2 hk0r huniq'

theorem foldl_postloadE_fresh (l : List (PId × PId)) (m : Model) :
    (l.foldl (fun m p => m.postloadE p.2) m).fresh = m.fresh := by
  induction l generalizing m with
  | nil => rfl
  | cons p rest ih =>
      simp only [List.foldl_cons]
      rw [ih]
      rfl

theorem lookupE_foldl_postloadE (l : List (PId × PId)) (m : Model) (jid : PId)
    (e : Elem) (he : m.lookupE jid = some e) :
    ∃ e', (l.foldl (fun m p => m.postloadE p.2) m).lookupE jid = some e' ∧
      e'.cls = e.cls ∧ e'.props = e.props ∧
      e'.postloads = e.postloads + l.countP (fun p => decide (p.2 = jid)) := by
  induction l generalizing m e with
  | nil => exact ⟨e, he, rfl, rfl, by simp⟩
  | cons p rest ih =>
      rcases p with ⟨k, v⟩
      simp only [List.foldl_cons]
      by_cases hv : v = jid
      · have he' : (m.postloadE v).lookupE jid =
            some ⟨e.cls, e.props, e.parent, e.diagId, e.postloads + 1⟩ := by
          rw [hv]
          exact lookupE_modifyE_self m jid _ e he
        rcases ih (m.postloadE v) _ he' with ⟨e', h1, h2, h3, h4⟩
        refine ⟨e', h1, h2, h3, ?_⟩
        rw [h4]
        simp [List.countP_cons, hv]
        omega
      · have he' : (m.postloadE v).lookupE jid = some e := by
          rw [Model.postloadE, lookupE_modifyE_ne _ _ _ _ hv]
          exact he
        rcases ih (m.postloadE v) e he' with ⟨e', h1, h2, h3, h4⟩
        refine ⟨e', h1, h2, h3, ?_⟩
        rw [h4]
        simp [List.countP_cons, hv]

theorem alook_foldl_dinsert_val (targetD : PId) (refs : List PId)
    (d : List (PId × PId)) (k x : PId)
    (hd : ∀ k' y, alook k' d = some y → y = targetD)
    (h : alook k (refs.foldl (fun d r => dinsert r targetD d) d) = some x) :
    x = targetD := by
  induction refs generalizing d with
  | nil => exact hd k x h
  | cons r rest ih =>
      simp only [List.foldl_cons] at h
      refine ih (dinsert r targetD d) ?_ h
      intro k' y hk'
      rw [alook_dinsert] at hk'
      by_cases hkr : k' = r
      · rw [if_pos hkr] at hk'
        injection hk' with hk'
        exact hk'.symm
      · rw [if_neg hkr] at hk'
        exact hd k' y hk'

theorem foldl_dinsert_keys_nodup (targetD : PId) (refs : List PId)
    (d : List (PId × PId)) (h : (d.map Prod.fst).Nodup) :
    (((refs.foldl (fun d r => dinsert r targetD d) d)).map Prod.fst).Nodup := by
  induction refs generalizing d with
  | nil => exact h
  | cons r rest ih =>
      simp only [List.foldl_cons]
      exact ih _ (dinsert_keys_nodup r targetD d h)

/-- C3, amended (plain-element bundles; see the counterexample for
presentation items, whose only `postload` is the closing pass): paste binds
each bundle identifier at most once (`new_elements` keys stay distinct, and
every binding added during the pass maps a bundle identifier to an element
created during the pass), every element created during the pass is bound by
exactly one identifier — so each bundle identifier leads to at most one
`create` — and, after the closing pass over the whole bundle, every created
element has received `postload()` exactly twice: once at the end of its own
property loading and once in the closing pass. -/
theorem paste_materializes_once (cd : CopyData) (targetD : PId) (m : Model)
    (full : Bool)
    (hbase : ∀ p ∈ cd.elements, ∃ cls id data, p.2 = CopyRecord.base cls id data)
    (hhead : ∀ k, m.fresh ≤ k → m.lookupE (PId.fresh k) = Option.none)
    (htarg : ∀ j, targetD ≠ PId.fresh j) :
    ((pasteAll cd targetD m full).2.newElements.map Prod.fst).Nodup ∧
    (∀ k x, alook k (pasteInit cd targetD m).newElements = Option.none →
      alook k (pasteAll cd targetD m full).2.newElements = some x →
      (alook k cd.elements).isSome ∧
      ∃ j, x = PId.fresh j ∧ m.fresh ≤ j ∧
        j < (pasteAll cd targetD m full).2.model.fresh) ∧
    (∀ j, m.fresh ≤ j → j < (pasteAll cd targetD m full).2.model.fresh →
      ∃ k, alook k (pasteAll cd targetD m full).2.newElements =
          some (PId.fresh j) ∧
        ∀ k', alook k' (pasteAll cd targetD m full).2.newElements =
          some (PId.fresh j) → k' = k) ∧
    (∀ j, m.fresh ≤ j → j < (pasteAll cd targetD m full).2.model.fresh →
      ∃ e, (pasteAll cd targetD m full).2.model.lookupE (PId.fresh j) = some e ∧
        e.postloads = 2) := by
  have hGI0 : GI (pasteInit cd targetD m) := by
    refine ⟨hhead, ?_, ?_, ?_⟩
    · intro k j hk
      exact absurd (alook_foldl_dinsert_val targetD cd.diagram_refs [] k _
        (fun k' y hk' => by cases hk') hk).symm (htarg j)
    · intro k1 k2 j hk1 _
      exact absurd (alook_foldl_dinsert_val targetD cd.diagram_refs [] k1 _
        (fun k' y hk' => by cases hk') hk1).symm (htarg j)
    · exact foldl_dinsert_keys_nodup targetD cd.diagram_refs [] (by simp)
  obtain ⟨hg1, hp1⟩ := pasteLoop_spec cd full targetD (pasteFuel cd) hbase
    (cd.elements.map Prod.fst) (pasteInit cd targetD m) hGI0
  obtain ⟨p1, p2, p3, p4, p5, p6⟩ := hp1
  set s1 := pasteLoop cd full targetD (pasteFuel cd) (cd.elements.map Prod.fst)
    (pasteInit cd targetD m) with hs1def
  have hmfresh : (pasteInit cd targetD m).model.fresh = m.fresh := rfl
  have hresNew : (pasteAll cd targetD m full).2.newElements = s1.newElements := rfl
  have hresModel : (pasteAll cd targetD m full).2.model =
      s1.newElements.foldl (fun m p => m.postloadE p.2) s1.model := rfl
  have hresFresh : (pasteAll cd targetD m full).2.model.fresh = s1.model.fresh := by
    rw [hresModel]
    exact foldl_postloadE_fresh _ _
  refine ⟨?_, ?_, ?_, ?_⟩
  · rw [hresNew]
    exact hg1.2.2.2
  · intro k x hk hk'
    rw [hresNew] at hk'
    rcases p4 k x hk hk' with ⟨hb, j, rfl, hj1, hj2, _⟩
    rw [hmfresh] at hj1
    exact ⟨hb, j, rfl, hj1, by rw [hresFresh]; exact hj2⟩
  · intro j hj1 hj2
    rw [hresFresh] at hj2
    rcases p5 j (by rw [hmfresh]; exact hj1) hj2 with ⟨k, hk1, hk2⟩
    refine ⟨k, by rw [hresNew]; exact hk2, ?_⟩
    intro k' hk'
    rw [hresNew] at hk'
    exact p6 k' k j (by rw [hmfresh]; exact hj1) hk' hk2
  · intro j hj1 hj2
    rw [hresFresh] at hj2
    rcases p5 j (by rw [hmfresh]; exact hj1) hj2 with ⟨k0, hk0none, hk0bind⟩
    rcases p4 k0 _ hk0none hk0bind with ⟨_, j2, hj2eq, _, _, e, he, hp⟩
    have hjj : j2 = j := by
      injection hj2eq with h
      exact h.symm
    subst hjj
    have hcount : s1.newElements.countP (fun p => decide (p.2 = PId.fresh j2)) = 1 := by
      apply countP_snd_eq_one s1.newElements hg1.2.2.2 (PId.fresh j2) k0 hk0bind
      intro k hk
      exact p6 k k0 j2 (by rw [hmfresh]; exact hj1) hk hk0bind
    rcases lookupE_foldl_postloadE s1.newElements s1.model (PId.fresh j2) e he
      with ⟨e', he', _, _, hpost⟩
    refine ⟨e', by rw [hresModel]; exact he', ?_⟩
    rw [hpost, hp, hcount]

/-- Concrete data for the C3 witness: the two-element mutual-reference bundle
pasted into an empty model (all records plain). -/
theorem paste_materializes_once_witness :
    ∃ e, (pasteAll (copy_full [cycleA "a" "b", cycleB "a" "b"]
        [cycleA "a" "b", cycleB "a" "b"] Option.none) (PId.orig "t") ⟨[], 0⟩
        true).2.model.lookupE (PId.fresh 0) = some e ∧ e.postloads = 2 :=
  (paste_materializes_once
      (copy_full [cycleA "a" "b", cycleB "a" "b"]
        [cycleA "a" "b", cycleB "a" "b"] Option.none)
      (PId.orig "t") ⟨[], 0⟩ true
      (by
        intro p hp
        have hp' : p ∈
            [((PId.orig "a" : PId), CopyRecord.base ⟨"T", false⟩ (PId.orig "a")
                [("other", Ser.r (PId.orig "b"))]),
             ((PId.orig "b" : PId), CopyRecord.base ⟨"T", false⟩ (PId.orig "b")
                [("other", Ser.r (PId.orig "a"))])] := hp
        rcases List.mem_cons.mp hp' with rfl | hp2
        · exact ⟨_, _, _, rfl⟩
        · rcases List.mem_cons.mp hp2 with rfl | hp3
          · exact ⟨_, _, _, rfl⟩
          · cases hp3)
      (fun k _ => rfl) (fun j => by intro h; cases h)).2.2.2 0
    (by decide) (by decide)


/-- The elements on which `copy_owned` is (transitively) invoked during a
`copy_full` with a resolver: the resolvable initially-copied identifiers, and
every owned element reached through an `owns` edge whose `owner` points back
at the expanding element. -/
inductive Expanded (src : SrcStore) (lk : PId → Option SrcElem)
    (initKeys : List PId) : SrcElem → Prop where
  | root (ref : PId) (e : SrcElem) (h1 : ref ∈ initKeys) (h2 : lk ref = some e) :
      Expanded src lk initKeys e
  | step (e o : SrcElem) (oId : PId) (he : Expanded src lk initKeys e)
      (h1 : oId ∈ e.owns) (h2 : getSrc src oId = some o)
      (h3 : o.owner = some e.id) : Expanded src lk initKeys o

/-- A bundle entry justified by the ownership expansion: it was yielded by
`copy` of an owned element whose `owner` check against an expanded element
succeeded. -/
def ExpEntry (src : SrcStore) (lk : PId → Option SrcElem) (initKeys : List PId)
    (fuelc : Nat) (p : PId × CopyRecord) : Prop :=
  ∃ e o oId, Expanded src lk initKeys e ∧ oId ∈ e.owns ∧
    getSrc src oId = some o ∧ o.owner = some e.id ∧ p ∈ copySrc src fuelc o

theorem copy_owned_sound (src : SrcStore) (lk : PId → Option SrcElem)
    (initKeys : List PId) (fuelc : Nat) (base : List (PId × CopyRecord)) :
    ∀ (fuel : Nat) (e : SrcElem) (d : List (PId × CopyRecord)),
      Expanded src lk initKeys e →
      (∀ p ∈ d, p ∈ base ∨ ExpEntry src lk initKeys fuelc p) →
      ∀ p ∈ copy_owned src fuelc fuel e d,
        p ∈ base ∨ ExpEntry src lk initKeys fuelc p := by
  intro fuel
  induction fuel with
  | zero => exact fun e d _ hd p hp => hd p hp
  | succ fuel ih =>
      intro e d hE hd p hp
      simp only [copy_owned] at hp
      revert hp
      have main : ∀ (l : List PId), (∀ x ∈ l, x ∈ e.owns) →
          ∀ (d : List (PId × CopyRecord)),
          (∀ p ∈ d, p ∈ base ∨ ExpEntry src lk initKeys fuelc p) →
          ∀ p ∈ l.foldl
            (fun d oId =>
              match getSrc src oId with
              | some o =>
                  if o.owner == some e.id then
                    (copySrc src fuelc o).foldl
                      (fun d p =>
                        if (alook p.1 d).isSome then d
                        else copy_owned src fuelc fuel o (dinsert p.1 p.2 d))
                      d
                  else d
              | Option.none => d)
            d,
          p ∈ base ∨ ExpEntry src lk initKeys fuelc p := by
        intro l
        induction l with
        | nil => exact fun _ d hd p hp => hd p hp
        | cons oId rest ihl =>
            intro hsub d hd p hp
            simp only [List.foldl_cons] at hp
            refine ihl (fun x hx => hsub x (by simp [hx])) _ ?_ p hp
            intro q hq
            rcases hget : getSrc src oId with _ | o
            · simp only [hget] at hq
              exact hd q hq
            · simp only [hget] at hq
              by_cases hown : (o.owner == some e.id) = true
              · rw [if_pos hown] at hq
                have hoe : Expanded src lk initKeys o :=
                  Expanded.step e o oId hE (hsub oId (by simp)) hget
                    (by simpa using hown)
                have inner : ∀ (l2 : List (PId × CopyRecord)),
                    (∀ x ∈ l2, x ∈ copySrc src fuelc o) →
                    ∀ (d2 : List (PId × CopyRecord)),
                    (∀ p ∈ d2, p ∈ base ∨ ExpEntry src lk initKeys fuelc p) →
                    ∀ q ∈ l2.foldl
                      (fun d p =>
                        if (alook p.1 d).isSome then d
                        else copy_owned src fuelc fuel o (dinsert p.1 p.2 d))
                      d2,
                    q ∈ base ∨ ExpEntry src lk initKeys fuelc q := by
                  intro l2
                  induction l2 with
                  | nil => exact fun _ d2 hd2 q hq => hd2 q hq
                  | cons pr rest2 ihl2 =>
                      intro hsub2 d2 hd2 q hq
                      simp only [List.foldl_cons] at hq
                      refine ihl2 (fun x hx => hsub2 x (by simp [hx])) _ ?_ q hq
                      intro q2 hq2
                      by_cases hpres : (alook pr.1 d2).isSome
                      · rw [if_pos hpres] at hq2
                        exact hd2 q2 hq2
                      · rw [if_neg hpres] at hq2
                        refine ih o _ hoe ?_ q2 hq2
                        intro q3 hq3
                        rcases mem_dinsert pr.1 pr.2 d2 q3 hq3 with heq | hmem
                        · right
                          exact ⟨e, o, oId, hE, hsub oId (by simp), hget,
                            by simpa using hown, by rw [heq]; exact hsub2 pr (by simp)⟩
                        · exact hd2 q3 hmem
                exact inner (copySrc src fuelc o) (fun x hx => hx) d hd q hq
              · rw [if_neg hown] at hq
                exact hd q hq
      exact main e.owns (fun x hx => hx) d hd p

theorem copy_owned_preserves (src : SrcStore) (fuelc : Nat) :
    ∀ (fuel : Nat) (e : SrcElem) (d : List (PId × CopyRecord)) (k : PId),
      (alook k d).isSome → alook k (copy_owned src fuelc fuel e d) = alook k d := by
  intro fuel
  induction fuel with
  | zero => exact fun e d k _ => rfl
  | succ fuel ih =>
      intro e d k hk
      simp only [copy_owned]
      have main : ∀ (l : List PId) (d : List (PId × CopyRecord)),
          (alook k d).isSome →
          alook k (l.foldl
            (fun d oId =>
              match getSrc src oId with
              | some o =>
                  if o.owner == some e.id then
                    (copySrc src fuelc o).foldl
                      (fun d p =>
                        if (alook p.1 d).isSome then d
                        else copy_owned src fuelc fuel o (dinsert p.1 p.2 d))
                      d
                  else d
              | Option.none => d)
            d) = alook k d := by
        intro l
        induction l with
        | nil => exact fun d _ => rfl
        | cons oId rest ihl =>
            intro d hd
            simp only [List.foldl_cons]
            rcases hget : getSrc src oId with _ | o
            · simp only [hget]
              exact ihl d hd
            · simp only [hget]
              by_cases hown : (o.owner == some e.id) = true
              · rw [if_pos hown]
                have inner : ∀ (l2 : List (PId × CopyRecord))
                    (d2 : List (PId × CopyRecord)), (alook k d2).isSome →
                    alook k (l2.foldl
                      (fun d p =>
                        if (alook p.1 d).isSome then d
                        else copy_owned src fuelc fuel o (dinsert p.1 p.2 d))
                      d2) = alook k d2 ∧
                    (alook k (l2.foldl
                      (fun d p =>
                        if (alook p.1 d).isSome then d
                        else copy_owned src fuelc fuel o (dinsert p.1 p.2 d))
                      d2)).isSome := by
                  intro l2
                  induction l2 with
                  | nil => exact fun d2 hd2 => ⟨rfl, hd2⟩
                  | cons pr rest2 ihl2 =>
                      intro d2 hd2
                      simp only [List.foldl_cons]
                      by_cases hpres : (alook pr.1 d2).isSome
                      · rw [if_pos hpres]
                        exact ihl2 d2 hd2
                      · rw [if_neg hpres]
                        have hkpr : pr.1 ≠ k := by
                          intro hkp
                          rw [hkp] at hpres
                          exact hpres hd2
                        have hdin : alook k (dinsert pr.1 pr.2 d2) = alook k d2 :=
                          alook_dinsert_ne pr.1 k pr.2 d2 hkpr
                        have hrec := ih o (dinsert pr.1 pr.2 d2) k
                          (by rw [hdin]; exact hd2)
                        have hsome : (alook k
                            (copy_owned src fuelc fuel o (dinsert pr.1 pr.2 d2))).isSome := by
                          rw [hrec, hdin]; exact hd2
                        obtain ⟨heq2, hsome2⟩ := ihl2 _ hsome
                        exact ⟨by rw [heq2, hrec, hdin], hsome2⟩
                have h2 := (inner (copySrc src fuelc o) d hd)
                rw [ihl _ ?_, h2.1]
                rw [h2.1]; exact hd
              · rw [if_neg hown]
                exact ihl d hd
      exact main e.owns d hk

theorem copy_roots_sound (src : SrcStore) (lk : PId → Option SrcElem)
    (initKeys : List PId) (fuelc fuel : Nat) (base : List (PId × CopyRecord)) :
    ∀ (l : List PId), (∀ x ∈ l, x ∈ initKeys) →
    ∀ (d : List (PId × CopyRecord)),
      (∀ p ∈ d, p ∈ base ∨ ExpEntry src lk initKeys fuelc p) →
      ∀ p ∈ l.foldl
        (fun d ref =>
          match lk ref with
          | some e => copy_owned src fuelc fuel e d
          | Option.none => d) d,
      p ∈ base ∨ ExpEntry src lk initKeys fuelc p := by
  intro l
  induction l with
  | nil => exact fun _ d hd p hp => hd p hp
  | cons ref rest ihl =>
      intro hsub d hd p hp
      simp only [List.foldl_cons] at hp
      refine ihl (fun x hx => hsub x (by simp [hx])) _ ?_ p hp
      intro q hq
      rcases hlk : lk ref with _ | e
      · simp only [hlk] at hq
        exact hd q hq
      · simp only [hlk] at hq
        exact copy_owned_sound src lk initKeys fuelc base fuel e d
          (Expanded.root ref e (hsub ref (by simp)) hlk) hd q hq

theorem copy_roots_preserves (src : SrcStore) (lk : PId → Option SrcElem)
    (fuelc fuel : Nat) (k : PId) :
    ∀ (l : List PId) (d : List (PId × CopyRecord)),
      (alook k d).isSome →
      alook k (l.foldl
        (fun d ref =>
          match lk ref with
          | some e => copy_owned src fuelc fuel e d
          | Option.none => d) d) = alook k d := by
  intro l
  induction l with
  | nil => exact fun d _ => rfl
  | cons ref rest ihl =>
      intro d hd
      simp only [List.foldl_cons]
      rcases hlk : lk ref with _ | e
      · simp only [hlk]
        exact ihl d hd
      · simp only [hlk]
        have h1 := copy_owned_preserves src fuelc fuel e d k hd
        rw [ihl _ (by rw [h1]; exact hd), h1]

/-- C10: the ownership-closure expansion of `copy_full` is sound and
conservative.  (i) With no resolver, no expansion happens: the result is
exactly the directly copied items (plus diagram refs).  (ii) With a
resolver, every entry of the resulting bundle is either an entry of the
initial bundle or was yielded by `copy` of an owned element `o` reached
through an `owns` edge of an expanded element `e` with the owner check
`owner(o) is e` satisfied — elements whose `owner` does not point back at
the expanding element contribute nothing.  (iii) An identifier already in
the bundle is never reprocessed: its binding survives the expansion
unchanged. -/
theorem copy_owned_ownership (src : SrcStore) (items : List SrcElem)
    (lk : PId → Option SrcElem) :
    copy_full src items Option.none =
      ⟨initElements src (src.length + 1) items, diagramRefs items⟩ ∧
    (∀ p ∈ (copy_full src items (some lk)).elements,
        p ∈ initElements src (src.length + 1) items ∨
        ExpEntry src lk ((initElements src (src.length + 1) items).map Prod.fst)
          (src.length + 1) p) ∧
    (∀ k : PId, (alook k (initElements src (src.length + 1) items)).isSome →
        alook k (copy_full src items (some lk)).elements =
        alook k (initElements src (src.length + 1) items)) := by
  have hunf : (copy_full src items (some lk)).elements =
      ((initElements src (src.length + 1) items).map Prod.fst).foldl
        (fun d ref =>
          match lk ref with
          | some e => copy_owned src (src.length + 1) (src.length + 1) e d
          | Option.none => d)
        (initElements src (src.length + 1) items) := rfl
  refine ⟨rfl, ?_, ?_⟩
  · rw [hunf]
    exact copy_roots_sound src lk
      ((initElements src (src.length + 1) items).map Prod.fst)
      (src.length + 1) (src.length + 1)
      (initElements src (src.length + 1) items)
      ((initElements src (src.length + 1) items).map Prod.fst)
      (fun x hx => hx)
      (initElements src (src.length + 1) items)
      (fun p hp => Or.inl hp)
  · intro k hk
    rw [hunf]
    exact copy_roots_preserves src lk (src.length + 1) (src.length + 1) k
      ((initElements src (src.length + 1) items).map Prod.fst)
      (initElements src (src.length + 1) items) hk

/-- Witness universe for the ownership theorem: `ownA` owns `ownB` and
`ownB`'s `owner` points back at `ownA`. -/
def ownA : SrcElem :=
  ⟨PId.orig "a", ⟨"A", false⟩, [], SrcKind.base, Option.none, Option.none,
   PId.orig "a", [], Option.none, [PId.orig "b"]⟩

/-- The owned element of the ownership witness. -/
def ownB : SrcElem :=
  ⟨PId.orig "b", ⟨"B", false⟩, [], SrcKind.base, Option.none, Option.none,
   PId.orig "b", [], some (PId.orig "a"), []⟩

/-- Source graph of the ownership witness. -/
def ownSrc : SrcStore := [ownA, ownB]

/-- The resolver of the ownership witness: plain store lookup. -/
def ownLk : PId → Option SrcElem := fun r => getSrc ownSrc r

theorem copy_owned_ownership_witness :
    copy_full ownSrc [ownA] Option.none =
      ⟨initElements ownSrc (ownSrc.length + 1) [ownA], diagramRefs [ownA]⟩ ∧
    (alook (PId.orig "a")
        (initElements ownSrc (ownSrc.length + 1) [ownA])).isSome ∧
    alook (PId.orig "a") (copy_full ownSrc [ownA] (some ownLk)).elements =
      alook (PId.orig "a") (initElements ownSrc (ownSrc.length + 1) [ownA]) :=
  ⟨(copy_owned_ownership ownSrc [ownA] ownLk).1, by decide,
   (copy_owned_ownership ownSrc [ownA] ownLk).2.2 (PId.orig "a") (by decide)⟩
